import Mathlib

/-!
Verification of the LSB steganography core of `toolbox` (`toolbox/subcommands/stego.py`
and `toolbox/binary.py`), shallowly embedded in Lean.

Modelling conventions:
* numpy `uint8` sample arrays become `List Nat`; single-element reads use `List.getD _ 0`
  and element updates use `List.set` (a no-op past the end — theorems carry the in-bounds
  hypotheses under which the Python code does not raise).
* numpy fixed-width arithmetic is explicit: `uint16` shifts wrap `% 65536`, `uint8`
  truncation is `% 256`.
* Python `while` loops become fuel-based structural recursion with a fuel value that
  provably suffices for the widths `w ∈ [1, 8]` the program uses; fuel exhaustion
  corresponds to the divergence of the source at `lsb = 0`.
* The external `hashlib.sha256(...).digest()` is abstracted as a parameter
  `H : List Nat → List Nat` (a 32-byte digest function); no property of `H` is assumed
  beyond what a theorem states.
* `assert` failures surface as `Except.error` with a short message.
* The diagnostic `Cursor.operations` log (decorator `record_op`) is not modelled;
  no claim depends on it.
-/

namespace Stego

/-- `toolbox.binary.get_mask`: `max(1, 2**n_bits) - 1`. -/
def get_mask (n_bits : Nat) : Nat := max 1 (2 ^ n_bits) - 1

/-- `toolbox.binary.split`: clamp the shift to `[0, 8]` (the lower clamp is vacuous over
`Nat`) and return the most / least significant parts. -/
def split (n shift : Nat) : Nat × Nat :=
  let s := min 8 shift
  (n >>> s, n &&& get_mask s)

/-- State of `Cursor`: LSB width `lsb`, logical byte offset `pos`, sample index `idx`.
The derived fields `lsb_mask` / `msb_mask` of the source are pure functions of `lsb`
and are modelled as the functions `lsb_mask` / `msb_mask` below. -/
structure Cursor where
  lsb : Nat
  pos : Nat
  idx : Nat
deriving Repr, DecidableEq

/-- `self.lsb_mask = get_mask(lsb)`. -/
def lsb_mask (w : Nat) : Nat := get_mask w

/-- `self.msb_mask = get_mask(8 - lsb) << lsb`. -/
def msb_mask (w : Nat) : Nat := get_mask (8 - w) <<< w

/-- `Cursor._get_bits`: bits remaining in the current sample. -/
def Cursor.getBits (c : Cursor) : Nat := c.lsb - (c.pos * 8) % c.lsb

/-- `Cursor._seek pos` for an integer argument: the returned triple
`(pos, index, bits remaining)`. -/
def seekTriple (w p : Nat) : Nat × Nat × Nat := (p, p * 8 / w, w - (p * 8) % w)

/-- `Cursor.seek pos` for an integer argument: update `pos` and `idx`. -/
def Cursor.seekTo (c : Cursor) (p : Nat) : Cursor :=
  { c with pos := p, idx := p * 8 / c.lsb }

/-- `Cursor.get_msb_mask`: `n_bits` clamped to `[0, lsb]`, then a mask of the clamped
number of high bits inside the `lsb`-bit field.  The argument is an `Int` because
`iter_bits` decrements `first_shift` below zero. -/
def get_msb_mask (w : Nat) (n_bits : Int) : Nat :=
  let nb := min w n_bits.toNat
  get_mask nb <<< (w - nb)

/-- The `while shift >= self.lsb` loop of `Cursor.iter_bits`: pop full `w`-bit chunks
(with their `get_msb_mask first_shift` companions) off the accumulator `q` holding
`shift` pending bits.  Each pop removes `w ≥ 1` bits, so fuel `shift` suffices; fuel
exhaustion corresponds to the source diverging at `lsb = 0`.  Returns the yielded
chunks and the final `(q, shift, first_shift)`. -/
def popChunksF (w : Nat) : Nat → Nat → Nat → Int → List (Nat × Nat) × Nat × Nat × Int
  | 0, q, shift, fs => ([], q, shift, fs)
  | fuel + 1, q, shift, fs =>
    if w ≤ shift then
      let shift' := shift - w
      let v := (split q shift').1
      let q' := (split q shift').2
      let rest := popChunksF w fuel q' shift' (fs - w)
      ((v, get_msb_mask w fs) :: rest.1, rest.2)
    else ([], q, shift, fs)

/-- The `for byte in data` loop of `Cursor.iter_bits`: shift each byte into the
accumulator, then pop full chunks.  Returns the yielded chunks and the final
`(q, shift, first_shift)`. -/
def iterBitsAux (w : Nat) : List Nat → Nat → Nat → Int → List (Nat × Nat) × Nat × Nat × Int
  | [], q, shift, fs => ([], q, shift, fs)
  | b :: rest, q, shift, fs =>
    let q1 := (q <<< 8) + (b &&& 0xFF)
    let s1 := shift + 8
    let r1 := popChunksF w s1 q1 s1 fs
    let r2 := iterBitsAux w rest r1.2.1 r1.2.2.1 r1.2.2.2
    (r1.1 ++ r2.1, r2.2)

/-- `Cursor.iter_bits data shift`: the full yielded list, including the trailing
zero-padded partial chunk when bits remain. -/
def iter_bits (w : Nat) (data : List Nat) (shift : Nat) : List (Nat × Nat) :=
  let r := iterBitsAux w data 0 shift shift
  if r.2.2.1 ≠ 0 then
    r.1 ++ [(r.2.1 <<< (w - r.2.2.1), get_mask (w - r.2.2.1))]
  else r.1

/-- The numpy slice update of `Cursor.write`:
`array[idx:idx+n] &= bit_mask; array[idx:idx+n] |= arr[:, 0]`, elementwise (the two
whole-slice operations touch disjoint indices, so interleaving them per element is
identical).  `np.uint8` truncates each stored value mod 256.  `List.set` past the end
is a no-op; the in-bounds hypotheses of the theorems match the slice staying inside
the array. -/
def writeVals (bm : Nat) : List Nat → Nat → List Nat → List Nat
  | a, _, [] => a
  | a, i, v :: vs => writeVals bm (a.set i ((a.getD i 0 &&& bm) ||| v % 256)) (i + 1) vs

/-- `Cursor.write array data`.  The source computes the per-chunk masks
(`arr[:, 1] |= bit_mask`) but then ANDs the slice with the constant `bit_mask`
only — the per-chunk mask column is commented out (`#arr[:, 1]`), so every touched
sample has all of its low `w` bits cleared before the new value is ORed in. -/
def Cursor.write (c : Cursor) (a : List Nat) (data : List Nat) : List Nat × Cursor :=
  let shift := c.lsb - c.getBits
  let arr := iter_bits c.lsb data shift
  if arr.length = 0 then (a, c)
  else
    let bit_mask := 0xFF &&& msb_mask c.lsb
    let a' := writeVals bit_mask a c.idx (arr.map Prod.fst)
    (a', c.seekTo (c.pos + data.length))

/-- One emitted byte of the `while count > 0` loop of `Cursor.iter_bytes`: advance
`idx`, buffer `lsb` more bits (`q` is a numpy `uint16`, so the shift wraps mod 2^16),
and repeat until 8 bits are buffered, then emit the top 8 as an `np.uint8`.
Fuel 8 suffices for `lsb ≥ 1` (each step buffers at least one more bit starting from
`bits ≤ 8`); exhaustion corresponds to the source diverging at `lsb = 0`.
Returns `(byte, idx, bits, q)`.  This is the VALUE of the step, reading 0 for an
out-of-bounds sample; the numpy indexing itself raises `IndexError` out of bounds,
which `readByteE` below adds on top of this computation. -/
def readByteF (w : Nat) (a : List Nat) : Nat → Nat → Nat → Nat → Nat × Nat × Nat × Nat
  | 0, idx, bits, q => (0, idx, bits, q)
  | fuel + 1, idx, bits, q =>
    let idx' := idx + 1
    let bits' := bits + w
    let q' := (q <<< w) % 65536 ||| (a.getD idx' 0 &&& lsb_mask w)
    if 8 ≤ bits' then ((q' >>> (bits' - 8)) % 256, idx', bits' - 8, q')
    else readByteF w a fuel idx' bits' q'

/-- The emitted bytes of `Cursor.iter_bytes` for a non-negative count (the
unchecked value; `readBytesE` adds the per-access bounds checks). -/
def readBytesF (w : Nat) (a : List Nat) : Nat → Nat → Nat → Nat → List Nat
  | 0, _, _, _ => []
  | n + 1, idx, bits, q =>
    let r := readByteF w a 8 idx bits q
    r.1 :: readBytesF w a n r.2.1 r.2.2.1 r.2.2.2

/-- The state `(idx, bits, q)` of the `iter_bytes` loop after emitting `n` bytes.
`idx` only moves forward and is read at every step, so the final `idx` is the
largest array index the loop accesses. -/
def readStateF (w : Nat) (a : List Nat) : Nat → Nat → Nat → Nat → Nat × Nat × Nat
  | 0, idx, bits, q => (idx, bits, q)
  | n + 1, idx, bits, q =>
    let r := readByteF w a 8 idx bits q
    readStateF w a n r.2.1 r.2.2.1 r.2.2.2

/-- One emitted byte of `Cursor.iter_bytes` with the bounds check of the numpy
scalar indexing: `array[self.idx]` raises `IndexError` when `idx ≥ len(array)`.
Identical to `readByteF` except that every per-step access is checked. -/
def readByteE (w : Nat) (a : List Nat) : Nat → Nat → Nat → Nat →
    Except String (Nat × Nat × Nat × Nat)
  | 0, idx, bits, q => .ok (0, idx, bits, q)
  | fuel + 1, idx, bits, q =>
    let idx' := idx + 1
    if idx' < a.length then
      let bits' := bits + w
      let q' := (q <<< w) % 65536 ||| (a.getD idx' 0 &&& lsb_mask w)
      if 8 ≤ bits' then .ok ((q' >>> (bits' - 8)) % 256, idx', bits' - 8, q')
      else readByteE w a fuel idx' bits' q'
    else .error "IndexError"

/-- The emitted bytes of `Cursor.iter_bytes` for a non-negative count, with the
per-access bounds checks: the whole read raises as soon as one access is out of
bounds. -/
def readBytesE (w : Nat) (a : List Nat) : Nat → Nat → Nat → Nat →
    Except String (List Nat)
  | 0, _, _, _ => .ok []
  | n + 1, idx, bits, q =>
    match readByteE w a 8 idx bits q with
    | .error e => .error e
    | .ok r =>
      match readBytesE w a n r.2.1 r.2.2.1 r.2.2.2 with
      | .error e => .error e
      | .ok rest => .ok (r.1 :: rest)

/-- The value `Cursor.read` computes when every array access is in bounds
(out-of-bounds samples read as 0): used to state what a successful read returns. -/
def Cursor.readVal (c : Cursor) (a : List Nat) (count : Int) : List Nat × Cursor :=
  let bits := c.getBits
  let q := a.getD c.idx 0 &&& get_mask bits
  (readBytesF c.lsb a count.toNat c.idx bits q, c.seekTo (c.pos + count.toNat))

/-- `Cursor.read array count` (`b"".join(self.iter_bytes(array, count))`).
The generator body runs as soon as `join` consumes it, so the initial
`q = np.uint16(array[self.idx] & get_mask(bits))` is evaluated — and can raise
`IndexError` — even when `count ≤ 0` and the loop body never runs.  The trailing
`self.seek(self.pos)` of `iter_bytes` re-derives `idx` from `pos`, so on success
the final cursor is `seekTo (pos + count)`. -/
def Cursor.read (c : Cursor) (a : List Nat) (count : Int) :
    Except String (List Nat × Cursor) :=
  if c.idx < a.length then
    let bits := c.getBits
    let q := a.getD c.idx 0 &&& get_mask bits
    match readBytesE c.lsb a count.toNat c.idx bits q with
    | .error e => .error e
    | .ok bs => .ok (bs, c.seekTo (c.pos + count.toNat))
  else .error "IndexError"

/-- `MAGIC_BYTES = b"=)"`. -/
def MAGIC_BYTES : List Nat := [0x3D, 0x29]

/-- The `Header` dataclass. -/
structure Header where
  magic_bytes : List Nat
  count : Nat
  checksum : List Nat
  reserved : List Nat
deriving Repr, DecidableEq

/-- `Header.is_valid`: the decoded magic equals the constant. -/
def Header.is_valid (h : Header) : Bool := h.magic_bytes == MAGIC_BYTES

/-- `int.from_bytes(bs, "big")`. -/
def beBytesToNat (bs : List Nat) : Nat := bs.foldl (fun acc b => acc * 256 + b % 256) 0

/-- `Cursor.read_header`: decode magic (2), count (4, big-endian), checksum (4),
reserved (4) through a fresh cursor; also return the cursor position after the
header (`header_end`, in logical bytes).  Each cursor read can raise `IndexError`
on an array too small for the header. -/
def read_header (w : Nat) (a : List Nat) : Except String (Header × Nat) := do
  let c0 : Cursor := { lsb := w, pos := 0, idx := 0 }
  let r1 ← c0.read a 2
  let r2 ← r1.2.read a 4
  let r3 ← r2.2.read a 4
  let r4 ← r3.2.read a 4
  .ok ({ magic_bytes := r1.1, count := beBytesToNat r2.1, checksum := r3.1,
         reserved := r4.1 },
       r4.2.pos)

/-- State of `Container`: the flattened sample array, configured width, decoded
header, `header_end`, and the live cursor. -/
structure Container where
  data : List Nat
  lsb : Nat
  header : Header
  header_end : Nat
  cursor : Cursor
deriving Repr, DecidableEq

/-- `Container.__init__` after the external image decode produced sample array `a`:
the constructor itself raises if the array cannot hold a header. -/
def Container.openArray (a : List Nat) (w : Nat) : Except String Container := do
  let rh ← read_header w a
  .ok { data := a
        lsb := w
        header := rh.1
        header_end := rh.2
        cursor := Cursor.seekTo { lsb := w, pos := 0, idx := 0 } rh.2 }

/-- `Container.get_capacity`: `(len(data) * lsb) // 8 - header_end` (an `Int`:
a tiny image gives a negative capacity in Python as well). -/
def Container.get_capacity (c : Container) : Int :=
  (c.data.length * c.lsb : Int) / 8 - c.header_end

/-- `Container.seek pos` for an integer argument: constrain to the header boundary
by adding `header_end`, then seek the cursor. -/
def Container.seek (c : Container) (p : Nat) : Container :=
  { c with cursor := c.cursor.seekTo (p + c.header_end) }

/-- The count `Container.read` actually reads: the request clamped to
`max_count = header.count + header_end - cursor.pos` (an omitted count reads all
of `max_count`). -/
def Container.readCount (c : Container) (count : Option Int) : Int :=
  let max_pos : Int := (c.header.count : Int) + c.header_end
  let max_count : Int := max_pos - c.cursor.pos
  match count with
  | some n => if max_count < n then max_count else n
  | none => max_count

/-- `Container.read count`: hard failure on an invalid header, otherwise clamp the
requested count and delegate to the cursor, whose `IndexError` propagates. -/
def Container.read (c : Container) (count : Option Int) :
    Except String (List Nat × Container) :=
  if c.header.is_valid then
    match c.cursor.read c.data (c.readCount count) with
    | .error e => .error e
    | .ok r => .ok (r.1, { c with cursor := r.2 })
  else .error "Attempt to read from an invalid container"

/-- `Container.read_from count pos`: save `cursor.pos`, seek to the payload-relative
`pos`, read, then `self.seek(curr_pos)` — which adds `header_end` to the saved
absolute cursor position again. -/
def Container.read_from (c : Container) (count : Int) (p : Nat) :
    Except String (List Nat × Container) := do
  let curr_pos := c.cursor.pos
  let c1 := c.seek p
  let (res, c2) ← c1.read (some count)
  .ok (res, c2.seek curr_pos)

/-- `Container.write data`: hard failure on an invalid header, otherwise write through
the cursor and set `header.count = len(data)`. -/
def Container.write (c : Container) (data : List Nat) : Except String Container :=
  if c.header.is_valid then
    let r := c.cursor.write c.data data
    .ok { c with
          data := r.1
          cursor := r.2
          header := { c.header with count := data.length } }
  else .error "Attempt to write to an invalid container"

/-- `Container.write_from data pos`: save `cursor.pos`, seek, write, then
`self.seek(curr_pos)` (same double offset as `read_from`). -/
def Container.write_from (c : Container) (data : List Nat) (p : Nat) :
    Except String Container := do
  let curr_pos := c.cursor.pos
  let c1 := c.seek p
  let c2 ← c1.write data
  .ok (c2.seek curr_pos)

/-- `Container._initialize force`: guard (`force or not is_valid()`), then reset the
header.  The source stores `sha256(b"").digest()[4:]` — the 32-byte digest of the
empty message with its FIRST 4 bytes dropped (28 bytes) — and
`(0).to_bytes(4, "big")` for `reserved`. -/
def Container.initHeader (H : List Nat → List Nat) (c : Container) (force : Bool) :
    Except String Container :=
  if force || !c.header.is_valid then
    .ok { c with
          header :=
            { magic_bytes := MAGIC_BYTES
              count := 0
              checksum := (H []).drop 4
              reserved := [0, 0, 0, 0] } }
  else .error "already a container, refusing to initialize"

/-- The `for _ in range(self.get_capacity())` loop of `Container.format`: one
`cursor.write(self.data, next(strategy))` per iteration; `strat k` is the k-th
byte string yielded by the strategy generator. -/
def formatLoop (strat : Nat → List Nat) : Nat → Nat → List Nat → Cursor → List Nat × Cursor
  | _, 0, a, cur => (a, cur)
  | k, n + 1, a, cur =>
    let r := cur.write a (strat k)
    formatLoop strat (k + 1) n r.1 r.2

/-- `Container.format strategy`: seek to payload offset 0, overwrite `get_capacity()`
bytes from the strategy (Python `range` of a negative capacity is empty), then reset
`header.count = 0`.  The header magic is never touched. -/
def Container.format (c : Container) (strat : Nat → List Nat) : Container :=
  let c0 := c.seek 0
  let r := formatLoop strat 0 c0.get_capacity.toNat c0.data c0.cursor
  { c0 with data := r.1, cursor := r.2, header := { c0.header with count := 0 } }

/-- The `--zeros` format strategy: `np.uint8(0).tobytes()` forever. -/
def fmt_zeros : Nat → List Nat := fun _ => [0]

/-- The `--ones` format strategy: `np.uint8(0xFF).tobytes()` forever. -/
def fmt_ones : Nat → List Nat := fun _ => [0xFF]

/-- A cursor that has performed `seek(p)`: `idx` is derived from `pos` exactly as
`Cursor.seek` derives it. -/
def Cursor.atPos (w p : Nat) : Cursor := { lsb := w, pos := p, idx := p * 8 / w }

/-- Bit `k` (0-based from the stream start) of the logical LSB bit-stream of array `a`
at width `w`: sample `k / w` contributes its low `w` bits, MSB-first. -/
def streamBit (w : Nat) (a : List Nat) (k : Nat) : Bool :=
  (a.getD (k / w) 0).testBit (w - 1 - k % w)

/-- Bit `k` of byte payload `D`, MSB-first within each byte (`false` past the end). -/
def dataBit (D : List Nat) (k : Nat) : Bool :=
  (D.getD (k / 8) 0 &&& 0xFF).testBit (7 - k % 8)

/-- Bit `x` of the pending-bits window of `iter_bits`: the accumulator `q` holds
`shift` bits (MSB-first), followed by the bits of the remaining data bytes. -/
def pendBit (q shift : Nat) (D : List Nat) (x : Nat) : Bool :=
  if x < shift then q.testBit (shift - 1 - x) else dataBit D (x - shift)

/-! Concrete instances used to evaluate the model at specific inputs (the digest
stand-in instantiates the abstract `H` parameter; the containers mirror a container
opened at the default width 2 on a small all-white image, whose 14-byte header ends
at logical position 14). -/

/-- A concrete 32-byte digest function standing in for the abstract hash parameter
when a theorem is evaluated at a specific input. -/
def H0 : List Nat → List Nat := fun _ => List.range 32

/-- A decoded header with valid magic and stored checksum `[9, 9, 9, 9]`. -/
def hdrValid : Header :=
  { magic_bytes := MAGIC_BYTES, count := 0, checksum := [9, 9, 9, 9],
    reserved := [0, 0, 0, 0] }

/-- A decoded header whose magic is wrong (not a container). -/
def hdrInvalid : Header :=
  { magic_bytes := [0, 0], count := 0, checksum := [9, 9, 9, 9],
    reserved := [0, 0, 0, 0] }

/-- A valid container state at the default width 2: 120 samples of value 255,
header ends at logical byte 14, cursor seeked to the payload start. -/
def cValid : Container :=
  { data := List.replicate 120 255, lsb := 2, header := hdrValid, header_end := 14,
    cursor := Cursor.atPos 2 14 }

/-- The same state with an invalid header. -/
def cInvalid : Container :=
  { data := List.replicate 120 255, lsb := 2, header := hdrInvalid, header_end := 14,
    cursor := Cursor.atPos 2 14 }

/-- A valid 60-sample container whose header declares 3 payload bytes — more than
its 1-byte capacity (the state `Container.write` leaves behind, see C7). -/
def cOver : Container :=
  { data := List.replicate 60 255, lsb := 2,
    header := { magic_bytes := MAGIC_BYTES, count := 3, checksum := [9, 9, 9, 9],
                reserved := [0, 0, 0, 0] },
    header_end := 14, cursor := Cursor.atPos 2 14 }

/-- A valid container over 61 samples: `61·2 = 122` is not a multiple of 8, so
after `format` the cursor index `⌊122/8⌋·8/2 = 60` is still inside the array. -/
def cOdd : Container :=
  { data := List.replicate 61 255, lsb := 2, header := hdrValid, header_end := 14,
    cursor := Cursor.atPos 2 14 }

end Stego

namespace Stego

/-! ### Bit-level toolkit -/

theorem get_mask_eq (n : Nat) : get_mask n = 2 ^ n - 1 := by
  have h : (1 : Nat) ≤ 2 ^ n := Nat.one_le_two_pow
  simp [get_mask, Nat.max_eq_right h]

theorem testBit_get_mask (n i : Nat) : (get_mask n).testBit i = decide (i < n) := by
  rw [get_mask_eq]; exact Nat.testBit_two_pow_sub_one n i

theorem and_get_mask (x n : Nat) : x &&& get_mask n = x % 2 ^ n := by
  rw [get_mask_eq]; exact Nat.and_pow_two_sub_one_eq_mod x n

theorem get_mask_lt (n : Nat) : get_mask n < 2 ^ n := by
  rw [get_mask_eq]; exact Nat.sub_lt (Nat.pos_pow_of_pos n (by norm_num)) Nat.one_pos

theorem testBit_msb_mask (w t : Nat) :
    (msb_mask w).testBit t = decide (w ≤ t ∧ t < 8) := by
  simp only [msb_mask, Nat.testBit_shiftLeft, testBit_get_mask]
  rcases Nat.lt_or_ge t w with h | h
  · simp [Nat.not_le.2 h, show ¬ (w ≤ t) from Nat.not_le.2 h]
  · simp only [ge_iff_le, h, decide_True, Bool.true_and]
    by_cases h8 : t < 8
    · have : t - w < 8 - w := by omega
      simp [this, h8, h]
    · have : ¬ (t - w < 8 - w) := by omega
      simp [this, h8]

theorem msb_mask_lt (w : Nat) : msb_mask w < 256 := by
  have : msb_mask w < 2 ^ 8 := by
    apply Nat.lt_pow_two_of_testBit
    intro i hi
    rw [testBit_msb_mask]
    simp only [decide_eq_false_iff_not]
    omega
  simpa using this

theorem and255_msb_mask (w : Nat) : 0xFF &&& msb_mask w = msb_mask w := by
  have h1 : msb_mask w &&& 0xFF = msb_mask w := by
    have : (0xFF : Nat) = get_mask 8 := by norm_num [get_mask]
    rw [this, and_get_mask, Nat.mod_eq_of_lt]
    simpa using msb_mask_lt w
  rw [Nat.and_comm, h1]

theorem dataBit_of_ge (D : List Nat) {k : Nat} (h : 8 * D.length ≤ k) :
    dataBit D k = false := by
  unfold dataBit
  have hlen : D.length ≤ k / 8 := by
    rcases Nat.eq_zero_or_pos D.length with h0 | _
    · simp [h0]
    · exact Nat.le_div_iff_mul_le (by norm_num) |>.2 (by omega)
  rw [List.getD_eq_default _ _ hlen]
  simp

theorem dataBit_cons_ge (b : Nat) (D : List Nat) {k : Nat} (h : 8 ≤ k) :
    dataBit (b :: D) k = dataBit D (k - 8) := by
  unfold dataBit
  have h1 : k / 8 = (k - 8) / 8 + 1 := by omega
  have h2 : k % 8 = (k - 8) % 8 := by omega
  rw [h1, h2]
  simp

theorem dataBit_cons_lt (b : Nat) (D : List Nat) {k : Nat} (h : k < 8) :
    dataBit (b :: D) k = (b &&& 0xFF).testBit (7 - k) := by
  unfold dataBit
  have h1 : k / 8 = 0 := Nat.div_eq_of_lt h
  have h2 : k % 8 = k := Nat.mod_eq_of_lt h
  rw [h1, h2]
  simp

/-- Bits of `q * 2^8 + r` for a byte `r`. -/
theorem testBit_shift8_add (q r i : Nat) (hr : r < 256) :
    ((q <<< 8) + r).testBit i = if i < 8 then r.testBit i else q.testBit (i - 8) := by
  have h : (q <<< 8) + r = 2 ^ 8 * q + r := by
    rw [Nat.shiftLeft_eq, Nat.mul_comm]
  rw [h]
  exact Nat.testBit_mul_pow_two_add q (show r < 2 ^ 8 by norm_num; omega) i

theorem testBit_false_of_lt {q i j : Nat} (hq : q < 2 ^ i) (hij : i ≤ j) :
    q.testBit j = false :=
  Nat.testBit_lt_two_pow (lt_of_lt_of_le hq (Nat.pow_le_pow_right (by norm_num) hij))

/-! ### Characterization of `iter_bits` (the write-side chunking) -/

/-- Characterization of the chunk-popping loop of `iter_bits` in the regime
`shift < w + 8` that every call inside `iter_bits` satisfies (there the 8-bit clamp
of `split` never truncates): it pops `shift / w` chunks, leaves the low `shift % w`
bits of `q` pending, and popped chunk `j` carries bits `[j*w, (j+1)*w)` of `q`'s
`shift`-bit window, MSB-first. -/
theorem popChunksF_spec (w : Nat) (hw : 1 ≤ w) :
    ∀ fuel q shift fs, shift / w ≤ fuel → shift < w + 8 → q < 2 ^ shift →
      (popChunksF w fuel q shift fs).2.2.1 = shift % w ∧
      (popChunksF w fuel q shift fs).1.length = shift / w ∧
      (popChunksF w fuel q shift fs).2.1 < 2 ^ (shift % w) ∧
      (∀ u, u < shift % w → (popChunksF w fuel q shift fs).2.1.testBit u = q.testBit u) ∧
      (∀ j t, j < shift / w →
        (((popChunksF w fuel q shift fs).1.getD j (0, 0)).1).testBit t =
          (decide (t < w) && q.testBit (shift - (j + 1) * w + t))) := by
  intro fuel
  induction fuel with
  | zero =>
    intro q shift fs hfuel hs8 hq
    have hlt : shift < w := by
      by_contra h
      have : 1 ≤ shift / w := (Nat.le_div_iff_mul_le (by omega)).2 (by omega)
      omega
    have hmod : shift % w = shift := Nat.mod_eq_of_lt hlt
    have hdiv : shift / w = 0 := Nat.div_eq_of_lt hlt
    exact ⟨hmod.symm, hdiv.symm, by rw [hmod]; exact hq, fun u _ => rfl,
      fun j t hj => absurd hj (by omega)⟩
  | succ fuel ih =>
    intro q shift fs hfuel hs8 hq
    by_cases hcase : w ≤ shift
    · have hsplit1 : (split q (shift - w)).1 = q >>> (shift - w) := by
        simp [split, Nat.min_eq_right (by omega : shift - w ≤ 8)]
      have hsplit2 : (split q (shift - w)).2 = q % 2 ^ (shift - w) := by
        simp [split, Nat.min_eq_right (by omega : shift - w ≤ 8), and_get_mask]
      have hdiv : shift / w = (shift - w) / w + 1 := Nat.div_eq_sub_div (by omega) hcase
      have hmod : shift % w = (shift - w) % w := by
        conv_lhs => rw [show shift = (shift - w) + w by omega]
        exact Nat.add_mod_right _ _
      have hq' : q % 2 ^ (shift - w) < 2 ^ (shift - w) :=
        Nat.mod_lt _ (Nat.pos_pow_of_pos _ (by norm_num))
      obtain ⟨h1, h2, h3, h4, h5⟩ := ih (q % 2 ^ (shift - w)) (shift - w) (fs - w)
        (by omega) (by omega) hq'
      simp only [popChunksF, if_pos hcase, hsplit1, hsplit2]
      refine ⟨by rw [h1, hmod], by simp [h2, hdiv], by rw [hmod]; exact h3, ?_, ?_⟩
      · intro u hu
        rw [h4 u (hmod ▸ hu), Nat.testBit_mod_two_pow]
        have : u < shift - w := lt_of_lt_of_le (hmod ▸ hu) (Nat.mod_le _ _)
        simp [this]
      · intro j t hj
        match j with
        | 0 =>
          simp only [List.getD_cons_zero, Nat.testBit_shiftRight, Nat.zero_add,
            Nat.one_mul]
          by_cases ht : t < w
          · simp [ht, Nat.add_comm]
          · have hfalse : ∀ m, shift ≤ m → q.testBit m = false := fun m hm =>
              testBit_false_of_lt hq hm
            simp only [ht, decide_False, Bool.false_and]
            exact hfalse _ (by omega)
        | j' + 1 =>
          have hj' : j' < (shift - w) / w := by omega
          have hjw : (j' + 1) * w ≤ shift - w :=
            (Nat.le_div_iff_mul_le (by omega : 0 < w)).1 (Nat.succ_le_of_lt hj')
          have how : w ≤ (j' + 1) * w := by
            calc w = 1 * w := (Nat.one_mul w).symm
            _ ≤ (j' + 1) * w := Nat.mul_le_mul_right w (by omega)
          simp only [List.getD_cons_succ]
          rw [h5 j' t hj']
          by_cases ht : t < w
          · have hidx : shift - w - (j' + 1) * w + t < shift - w := by omega
            rw [Nat.testBit_mod_two_pow]
            have hm : (j' + 1 + 1) * w = (j' + 1) * w + w := by ring
            have heq : shift - (j' + 1 + 1) * w + t = shift - w - (j' + 1) * w + t := by
              rw [hm]; omega
            simp [hidx, heq]
          · simp [ht]
    · have hmod : shift % w = shift := Nat.mod_eq_of_lt (by omega)
      have hdiv : shift / w = 0 := Nat.div_eq_of_lt (by omega)
      have hred : popChunksF w (fuel + 1) q shift fs = ([], q, shift, fs) := by
        simp [popChunksF, hcase]
      rw [hred]
      exact ⟨hmod.symm, hdiv.symm, by rw [hmod]; exact hq, fun u _ => rfl,
        fun j t hj => absurd hj (by omega)⟩

/-! List `getD` helpers (4.14 core states these through `getElem?`). -/

theorem getD_append_left {α : Type} (l1 l2 : List α) (d : α) (i : Nat)
    (h : i < l1.length) : (l1 ++ l2).getD i d = l1.getD i d := by
  simp [List.getD_eq_getElem?_getD, List.getElem?_append_left h]

theorem getD_append_right {α : Type} (l1 l2 : List α) (d : α) (i : Nat)
    (h : l1.length ≤ i) : (l1 ++ l2).getD i d = l2.getD (i - l1.length) d := by
  simp [List.getD_eq_getElem?_getD, List.getElem?_append_right h]

theorem getD_of_length_le {α : Type} (l : List α) (d : α) (i : Nat)
    (h : l.length ≤ i) : l.getD i d = d := by
  simp [List.getD_eq_getElem?_getD, List.getElem?_eq_none h]

theorem getD_set_self {α : Type} (l : List α) (i : Nat) (x d : α)
    (h : i < l.length) : (l.set i x).getD i d = x := by
  simp [List.getD_eq_getElem?_getD, List.getElem?_set_self h]

theorem getD_set_ne {α : Type} (l : List α) (i j : Nat) (x d : α) (h : i ≠ j) :
    (l.set i x).getD j d = l.getD j d := by
  simp [List.getD_eq_getElem?_getD, List.getElem?_set_ne h]

/-- Loading one data byte into the `iter_bits` accumulator does not change the
pending-bits window. -/
theorem pendBit_cons (q shift b : Nat) (rest : List Nat) (x : Nat) :
    pendBit ((q <<< 8) + (b &&& 0xFF)) (shift + 8) rest x = pendBit q shift (b :: rest) x := by
  have hr : b &&& 0xFF < 256 := Nat.lt_succ_of_le (Nat.and_le_right)
  unfold pendBit
  rcases Nat.lt_or_ge x shift with h1 | h1
  · have hx : x < shift + 8 := by omega
    rw [if_pos hx, if_pos h1, testBit_shift8_add _ _ _ hr]
    have hn : ¬ (shift + 8 - 1 - x < 8) := by omega
    rw [if_neg hn]
    all_goals (congr 1 <;> omega)
  · rcases Nat.lt_or_ge x (shift + 8) with h2 | h2
    · rw [if_pos h2, if_neg (by omega), testBit_shift8_add _ _ _ hr]
      have hlt : shift + 8 - 1 - x < 8 := by omega
      rw [if_pos hlt, dataBit_cons_lt _ _ (by omega : x - shift < 8)]
      all_goals (congr 1 <;> omega)
    · rw [if_neg (by omega), if_neg (by omega),
        dataBit_cons_ge _ _ (by omega : 8 ≤ x - shift)]
      all_goals (congr 1 <;> omega)

/-- Popping the full chunks off the accumulator advances the pending-bits window by
`s1 / w * w` positions. -/
theorem pendBit_drop (w : Nat) (hw : 1 ≤ w) (q1 s1 q2 : Nat)
    (hbits : ∀ u, u < s1 % w → q2.testBit u = q1.testBit u) (rest : List Nat) (y : Nat) :
    pendBit q2 (s1 % w) rest y = pendBit q1 s1 rest (s1 / w * w + y) := by
  have hdm : s1 / w * w + s1 % w = s1 := Nat.div_add_mod' s1 w
  unfold pendBit
  rcases Nat.lt_or_ge y (s1 % w) with h1 | h1
  · have hx : s1 / w * w + y < s1 := by omega
    have hylt : s1 % w - 1 - y < s1 % w := by omega
    rw [if_pos h1, if_pos hx, hbits _ hylt]
    have hidx : s1 % w - 1 - y = s1 - 1 - (s1 / w * w + y) := by omega
    rw [hidx]
  · rw [if_neg (by omega), if_neg (by omega)]
    all_goals (congr 1 <;> omega)

/-- Characterization of the byte loop of `iter_bits`: with `q < 2^shift` pending bits
and `shift < w`, it emits `(shift + 8*|D|) / w` chunks — chunk `j` carrying bits
`[j*w, (j+1)*w)` of the pending window `pendBit q shift D` — and leaves the final
`(shift + 8*|D|) % w` window bits in the accumulator. -/
theorem iterBitsAux_spec (w : Nat) (hw : 1 ≤ w) (hw8 : w ≤ 8) :
    ∀ (D : List Nat) (q shift : Nat) (fs : Int), shift < w → q < 2 ^ shift →
      (iterBitsAux w D q shift fs).2.2.1 = (shift + 8 * D.length) % w ∧
      (iterBitsAux w D q shift fs).1.length = (shift + 8 * D.length) / w ∧
      (iterBitsAux w D q shift fs).2.1 < 2 ^ ((shift + 8 * D.length) % w) ∧
      (∀ u, u < (shift + 8 * D.length) % w →
        (iterBitsAux w D q shift fs).2.1.testBit u =
          pendBit q shift D (shift + 8 * D.length - 1 - u)) ∧
      (∀ j t, j < (shift + 8 * D.length) / w →
        (((iterBitsAux w D q shift fs).1.getD j (0, 0)).1).testBit t =
          (decide (t < w) && pendBit q shift D (j * w + (w - 1 - t)))) := by
  intro D
  induction D with
  | nil =>
    intro q shift fs hs hq
    have hmod : shift % w = shift := Nat.mod_eq_of_lt hs
    have hdiv : shift / w = 0 := Nat.div_eq_of_lt hs
    simp only [List.length_nil, Nat.mul_zero, Nat.add_zero]
    refine ⟨hmod.symm, hdiv.symm, by rw [hmod]; exact hq, ?_,
      fun j t hj => absurd hj (by omega)⟩
    intro u hu
    rw [hmod] at hu
    show q.testBit u = pendBit q shift [] (shift - 1 - u)
    unfold pendBit
    rw [if_pos (by omega)]
    congr 1
    omega
  | cons b rest ih =>
    intro q shift fs hs hq
    have hr : b &&& 0xFF < 256 := Nat.lt_succ_of_le (Nat.and_le_right)
    have hq1 : (q <<< 8) + (b &&& 0xFF) < 2 ^ (shift + 8) := by
      rw [Nat.shiftLeft_eq, Nat.pow_add]
      have h1 : (q + 1) * 2 ^ 8 ≤ 2 ^ shift * 2 ^ 8 :=
        Nat.mul_le_mul_right _ (by omega)
      have h2 : q * 2 ^ 8 + 2 ^ 8 = (q + 1) * 2 ^ 8 := by ring
      have h8 : (2 : Nat) ^ 8 = 256 := by norm_num
      omega
    obtain ⟨p1, p2, p3, p4, p5⟩ := popChunksF_spec w hw (shift + 8)
      ((q <<< 8) + (b &&& 0xFF)) (shift + 8) fs (Nat.div_le_self _ _) (by omega) hq1
    set q1 := (q <<< 8) + (b &&& 0xFF) with hq1def
    set s1 := shift + 8 with hs1def
    set R1 := popChunksF w s1 q1 s1 fs with hR1def
    have hsh2 : s1 % w < w := Nat.mod_lt _ (by omega)
    obtain ⟨i1, i2, i3, i4, i5⟩ := ih R1.2.1 (s1 % w) R1.2.2.2 hsh2 p3
    have hdm : s1 / w * w + s1 % w = s1 := Nat.div_add_mod' s1 w
    have hdm2 : w * (s1 / w) + s1 % w = s1 := Nat.div_add_mod s1 w
    have hT : shift + 8 * (b :: rest).length = w * (s1 / w) + (s1 % w + 8 * rest.length) := by
      simp only [List.length_cons]
      omega
    have hTd : (shift + 8 * (b :: rest).length) / w
        = s1 / w + (s1 % w + 8 * rest.length) / w := by
      rw [hT, Nat.mul_add_div (by omega)]
    have hTm : (shift + 8 * (b :: rest).length) % w = (s1 % w + 8 * rest.length) % w := by
      rw [hT, Nat.mul_add_mod]
    have htrans : ∀ x, pendBit R1.2.1 (s1 % w) rest x
        = pendBit q shift (b :: rest) (s1 / w * w + x) := by
      intro x
      rw [pendBit_drop w hw q1 s1 R1.2.1 (fun u hu => p4 u hu) rest x, pendBit_cons]
    simp only [iterBitsAux]
    rw [← hq1def, ← hs1def, ← hR1def, p1]
    refine ⟨?_, ?_, ?_, ?_, ?_⟩
    · rw [i1, hTm]
    · rw [List.length_append, i2, p2, hTd]
    · rw [hTm]; exact i3
    · intro u hu
      rw [hTm] at hu
      rw [i4 u hu, htrans]
      have hmle : (s1 % w + 8 * rest.length) % w ≤ s1 % w + 8 * rest.length :=
        Nat.mod_le _ _
      have hidx : s1 / w * w + (s1 % w + 8 * rest.length - 1 - u)
          = shift + 8 * (b :: rest).length - 1 - u := by
        simp only [List.length_cons]
        omega
      rw [hidx]
    · intro j t hj
      rw [hTd] at hj
      rcases Nat.lt_or_ge j (s1 / w) with hjk | hjk
      · rw [getD_append_left _ _ _ _ (p2 ▸ hjk : j < R1.1.length), p5 j t hjk]
        by_cases ht : t < w
        · have hjw : (j + 1) * w ≤ s1 :=
            (Nat.le_div_iff_mul_le (by omega : 0 < w)).1 (Nat.succ_le_of_lt hjk)
          have hm : (j + 1) * w = j * w + w := by ring
          have hx : j * w + (w - 1 - t) < s1 := by omega
          rw [show pendBit q shift (b :: rest) (j * w + (w - 1 - t))
              = pendBit q1 s1 rest (j * w + (w - 1 - t)) from (pendBit_cons _ _ _ _ _).symm]
          unfold pendBit
          rw [if_pos hx]
          have hidx : s1 - (j + 1) * w + t = s1 - 1 - (j * w + (w - 1 - t)) := by
            rw [hm] at hjw ⊢
            omega
          rw [hidx]
        · simp [ht]
      · rw [getD_append_right _ _ _ _ (p2 ▸ hjk : R1.1.length ≤ j), p2,
          i5 (j - s1 / w) t (by omega), htrans]
        by_cases ht : t < w
        · have hmul : s1 / w * w + (j - s1 / w) * w = j * w := by
            rw [← Nat.add_mul]
            congr 1
            omega
          have hidx : s1 / w * w + ((j - s1 / w) * w + (w - 1 - t))
              = j * w + (w - 1 - t) := by omega
          rw [hidx]
        · simp [ht]

/-- Characterization of `iter_bits` (chunk values): with initial shift `s < w`, the
yielded list has `⌈(s + 8*|D|) / w⌉` entries, and the value of entry `j` carries
window bits `[j*w, (j+1)*w)` of `pendBit 0 s D` (trailing positions past the data
are zero-padded). -/
theorem iter_bits_spec (w : Nat) (hw : 1 ≤ w) (hw8 : w ≤ 8) (D : List Nat) (s : Nat)
    (hs : s < w) :
    (iter_bits w D s).length = (s + 8 * D.length + (w - 1)) / w ∧
    ∀ j t, j < (iter_bits w D s).length →
      (((iter_bits w D s).getD j (0, 0)).1).testBit t =
        (decide (t < w) && pendBit 0 s D (j * w + (w - 1 - t))) := by
  obtain ⟨a1, a2, a3, a4, a5⟩ := iterBitsAux_spec w hw hw8 D 0 s s hs
    (Nat.pos_pow_of_pos _ (by norm_num))
  set T := s + 8 * D.length with hT
  set R := iterBitsAux w D 0 s s with hR
  have hdm : T / w * w + T % w = T := Nat.div_add_mod' T w
  have hdm2 : w * (T / w) + T % w = T := Nat.div_add_mod T w
  by_cases hz : T % w = 0
  · have hred : iter_bits w D s = R.1 := by
      simp only [iter_bits]
      rw [← hR, a1]
      simp [hz]
    have hlen : (T + (w - 1)) / w = T / w := by
      have h1 : T + (w - 1) = w * (T / w) + (w - 1) := by omega
      rw [h1, Nat.mul_add_div (by omega), Nat.div_eq_of_lt (by omega : w - 1 < w)]
      omega
    refine ⟨by rw [hred, a2, hT] at *; exact hlen ▸ rfl, ?_⟩
    · intro j t hj
      rw [hred] at hj ⊢
      rw [a2] at hj
      exact a5 j t hj
  · have hred : iter_bits w D s =
        R.1 ++ [(R.2.1 <<< (w - T % w), get_mask (w - T % w))] := by
      simp only [iter_bits]
      rw [← hR, a1]
      simp [hz]
    have hmlt : T % w < w := Nat.mod_lt _ (by omega)
    have hlen : (T + (w - 1)) / w = T / w + 1 := by
      have h1 : T + (w - 1) = w * (T / w) + (T % w - 1 + w) := by omega
      rw [h1, Nat.mul_add_div (by omega), Nat.add_div_right _ (by omega),
        Nat.div_eq_of_lt (by omega : T % w - 1 < w)]
    refine ⟨?_, ?_⟩
    · rw [hred, List.length_append, a2, List.length_cons, List.length_nil, hlen]
    · intro j t hj
      rw [hred] at hj ⊢
      rw [List.length_append, a2, List.length_cons, List.length_nil] at hj
      rcases Nat.lt_or_ge j (T / w) with hjlt | hjge
      · rw [getD_append_left _ _ _ _ (a2 ▸ hjlt : j < R.1.length)]
        exact a5 j t hjlt
      · have hj0 : j = T / w := by omega
        subst hj0
        rw [getD_append_right _ _ _ _ (a2 ▸ le_refl (T / w) : R.1.length ≤ T / w), a2,
          Nat.sub_self, List.getD_cons_zero, Nat.testBit_shiftLeft]
        by_cases ht : t < w
        · by_cases htlo : t < w - T % w
          · have h1 : ¬ (w - T % w ≤ t) := by omega
            simp only [ge_iff_le, h1, decide_False, Bool.false_and, ht, decide_True,
              Bool.true_and, eq_comm]
            unfold pendBit
            rw [if_neg (by omega : ¬ T / w * w + (w - 1 - t) < s)]
            symm
            apply dataBit_of_ge
            omega
          · have h1 : w - T % w ≤ t := by omega
            have hu : t - (w - T % w) < T % w := by omega
            simp only [ge_iff_le, h1, decide_True, Bool.true_and, ht]
            rw [a4 _ hu]
            have hpos : T - 1 - (t - (w - T % w)) = T / w * w + (w - 1 - t) := by omega
            rw [hpos]
        · have h2 : R.2.1.testBit (t - (w - T % w)) = false :=
            testBit_false_of_lt a3 (by omega)
          simp only [h2, Bool.and_false, ht, decide_False, Bool.false_and]

/-- Chunk values produced by `iter_bits` fit in `w` bits. -/
theorem iter_bits_val_lt (w : Nat) (hw : 1 ≤ w) (hw8 : w ≤ 8) (D : List Nat) (s : Nat)
    (hs : s < w) :
    ∀ j, j < (iter_bits w D s).length → ((iter_bits w D s).getD j (0, 0)).1 < 2 ^ w := by
  intro j hj
  apply Nat.lt_pow_two_of_testBit
  intro i hi
  rw [(iter_bits_spec w hw hw8 D s hs).2 j i hj]
  simp [Nat.not_lt.2 hi]

/-! ### Characterization of the slice update in `Cursor.write` -/

theorem writeVals_getD_lt (bm : Nat) :
    ∀ (vs a : List Nat) (i k : Nat), k < i →
      (writeVals bm a i vs).getD k 0 = a.getD k 0 := by
  intro vs
  induction vs with
  | nil => intro a i k _; rfl
  | cons v vs ih =>
    intro a i k hk
    show (writeVals bm (a.set i _) (i + 1) vs).getD k 0 = _
    rw [ih _ _ _ (by omega), getD_set_ne _ _ _ _ _ (by omega)]

theorem writeVals_getD_ge (bm : Nat) :
    ∀ (vs a : List Nat) (i k : Nat), i + vs.length ≤ k →
      (writeVals bm a i vs).getD k 0 = a.getD k 0 := by
  intro vs
  induction vs with
  | nil => intro a i k _; rfl
  | cons v vs ih =>
    intro a i k hk
    simp only [List.length_cons] at hk
    show (writeVals bm (a.set i _) (i + 1) vs).getD k 0 = _
    rw [ih _ _ _ (by omega), getD_set_ne _ _ _ _ _ (by omega)]

theorem writeVals_getD_mid (bm : Nat) :
    ∀ (vs a : List Nat) (i j : Nat), j < vs.length → i + vs.length ≤ a.length →
      (writeVals bm a i vs).getD (i + j) 0 =
        ((a.getD (i + j) 0 &&& bm) ||| (vs.getD j 0) % 256) := by
  intro vs
  induction vs with
  | nil => intro a i j hj _; simp at hj
  | cons v vs ih =>
    intro a i j hj hlen
    simp only [List.length_cons] at hj hlen
    show (writeVals bm (a.set i ((a.getD i 0 &&& bm) ||| v % 256)) (i + 1) vs).getD (i + j) 0 = _
    match j with
    | 0 =>
      rw [writeVals_getD_lt bm vs _ _ _ (by omega), Nat.add_zero,
        getD_set_self _ _ _ _ (by omega), List.getD_cons_zero]
    | j' + 1 =>
      have h1 : i + (j' + 1) = (i + 1) + j' := by omega
      rw [h1, ih _ (i + 1) j' (by omega) (by simpa using (by omega : i + 1 + vs.length ≤ a.length)),
        getD_set_ne _ _ _ _ _ (by omega), List.getD_cons_succ]

/-! ### Frame and stream effect of `Cursor.write` -/

/-- `Cursor.write` from a cursor seeked to `p`, in closed form: the computed shift is
`(p*8) % w`, the touched slice starts at sample `p*8 / w`, and the cursor ends seeked
to `p + len(data)`. -/
theorem cursorWrite_eq (w p : Nat) (hw : 1 ≤ w) (a D : List Nat) :
    (Cursor.atPos w p).write a D =
      (if (iter_bits w D (p * 8 % w)).length = 0 then (a, Cursor.atPos w p)
       else (writeVals (0xFF &&& msb_mask w) a (p * 8 / w)
               ((iter_bits w D (p * 8 % w)).map Prod.fst),
             Cursor.atPos w (p + D.length))) := by
  have hsm : p * 8 % w < w := Nat.mod_lt _ (by omega)
  have hss : w - (w - p * 8 % w) = p * 8 % w := by omega
  simp only [Cursor.write, Cursor.atPos, Cursor.getBits, Cursor.seekTo, hss]

/-- After a write from a seeked cursor, the cursor sits at `pos + len(data)` with the
derived index. -/
theorem cursorWrite_cursor (w p : Nat) (hw : 1 ≤ w) (hw8 : w ≤ 8) (a D : List Nat) :
    ((Cursor.atPos w p).write a D).2 = Cursor.atPos w (p + D.length) := by
  have hsm : p * 8 % w < w := Nat.mod_lt _ (by omega)
  rw [cursorWrite_eq w p hw a D]
  by_cases hlen : (iter_bits w D (p * 8 % w)).length = 0
  · rw [if_pos hlen]
    obtain ⟨l1, _⟩ := iter_bits_spec w hw hw8 D (p * 8 % w) hsm
    rw [l1] at hlen
    have hD : D.length = 0 := by
      by_contra hc
      have h1 : 1 ≤ (p * 8 % w + 8 * D.length + (w - 1)) / w :=
        (Nat.le_div_iff_mul_le (by omega)).2 (by omega)
      omega
    rw [hD]
    rfl
  · rw [if_neg hlen]

/-- Frame property of `Cursor.write`: samples outside
`[p*8/w, p*8/w + (number of chunks))` are untouched. -/
theorem cursorWrite_frame (w p : Nat) (hw : 1 ≤ w) (hw8 : w ≤ 8) (a D : List Nat)
    (i : Nat)
    (h : i < p * 8 / w ∨ p * 8 / w + (iter_bits w D (p * 8 % w)).length ≤ i) :
    ((Cursor.atPos w p).write a D).1.getD i 0 = a.getD i 0 := by
  rw [cursorWrite_eq w p hw a D]
  by_cases hlen : (iter_bits w D (p * 8 % w)).length = 0
  · rw [if_pos hlen]
  · rw [if_neg hlen]
    rcases h with h | h
    · exact writeVals_getD_lt _ _ _ _ _ h
    · refine writeVals_getD_ge _ _ _ _ _ ?_
      simpa using h

/-- Touched samples after `Cursor.write`: sample `p*8/w + j` becomes its old value
with all low `w` bits cleared, ORed with the value of chunk `j`. -/
theorem cursorWrite_touched (w p : Nat) (hw : 1 ≤ w) (hw8 : w ≤ 8) (a D : List Nat)
    (j : Nat) (hj : j < (iter_bits w D (p * 8 % w)).length)
    (hbound : p * 8 / w + (iter_bits w D (p * 8 % w)).length ≤ a.length) :
    ((Cursor.atPos w p).write a D).1.getD (p * 8 / w + j) 0 =
      ((a.getD (p * 8 / w + j) 0 &&& msb_mask w) |||
        ((iter_bits w D (p * 8 % w)).getD j (0, 0)).1) := by
  have hsm : p * 8 % w < w := Nat.mod_lt _ (by omega)
  rw [cursorWrite_eq w p hw a D, if_neg (by omega : ¬ (iter_bits w D (p * 8 % w)).length = 0)]
  rw [and255_msb_mask,
    writeVals_getD_mid _ _ _ _ _ (by simpa using hj) (by simpa using hbound)]
  have hmap : ((iter_bits w D (p * 8 % w)).map Prod.fst).getD j 0 =
      ((iter_bits w D (p * 8 % w)).getD j (0, 0)).1 := by
    rw [List.getD_eq_getElem?_getD, List.getD_eq_getElem?_getD, List.getElem?_map,
      List.getElem?_eq_getElem hj]
    simp
  rw [hmap, Nat.mod_eq_of_lt]
  calc ((iter_bits w D (p * 8 % w)).getD j (0, 0)).1 < 2 ^ w :=
        iter_bits_val_lt w hw hw8 D _ hsm j hj
    _ ≤ 256 := Nat.pow_le_pow_right (by norm_num) hw8

/-- Stream effect of `Cursor.write`: for every bit position `k` inside the written
region `[p*8, (p + len D)*8)`, the logical bit-stream of the updated array carries
exactly bit `k - p*8` of the payload. -/
theorem cursorWrite_streamBit (w p : Nat) (hw : 1 ≤ w) (hw8 : w ≤ 8) (a D : List Nat)
    (hbound : (p + D.length) * 8 ≤ a.length * w) (k : Nat)
    (hk1 : p * 8 ≤ k) (hk2 : k < (p + D.length) * 8) :
    streamBit w ((Cursor.atPos w p).write a D).1 k = dataBit D (k - p * 8) := by
  have hsm : p * 8 % w < w := Nat.mod_lt _ (by omega)
  have hps : p * 8 / w * w + p * 8 % w = p * 8 := Nat.div_add_mod' _ _
  obtain ⟨l1, l2⟩ := iter_bits_spec w hw hw8 D (p * 8 % w) hsm
  have hL8 : (p + D.length) * 8 = p * 8 + 8 * D.length := by ring
  have hM1 : 1 ≤ p * 8 + 8 * D.length := by omega
  have hceil : p * 8 / w + (iter_bits w D (p * 8 % w)).length
      = (p * 8 + 8 * D.length - 1) / w + 1 := by
    rw [l1]
    have h5 : w * (p * 8 / w) + (p * 8 % w + 8 * D.length + (w - 1))
        = p * 8 + 8 * D.length - 1 + w := by
      have h0 : w * (p * 8 / w) = p * 8 / w * w := Nat.mul_comm _ _
      omega
    calc p * 8 / w + (p * 8 % w + 8 * D.length + (w - 1)) / w
        = (w * (p * 8 / w) + (p * 8 % w + 8 * D.length + (w - 1))) / w :=
          (Nat.mul_add_div (by omega) _ _).symm
      _ = (p * 8 + 8 * D.length - 1 + w) / w := by rw [h5]
      _ = (p * 8 + 8 * D.length - 1) / w + 1 := Nat.add_div_right _ (by omega)
  have hkdiv_lo : p * 8 / w ≤ k / w := Nat.div_le_div_right hk1
  have hkdiv_hi : k / w < p * 8 / w + (iter_bits w D (p * 8 % w)).length := by
    have h1 : k / w ≤ (p * 8 + 8 * D.length - 1) / w := Nat.div_le_div_right (by omega)
    omega
  have hbound2 : p * 8 / w + (iter_bits w D (p * 8 % w)).length ≤ a.length := by
    have h1 : (p * 8 + 8 * D.length - 1) / w < a.length := by
      rw [Nat.div_lt_iff_lt_mul (by omega : 0 < w)]
      calc p * 8 + 8 * D.length - 1 < (p + D.length) * 8 := by omega
        _ ≤ a.length * w := hbound
    omega
  obtain ⟨j, hkj⟩ : ∃ j, k / w = p * 8 / w + j := ⟨k / w - p * 8 / w, by omega⟩
  have hjn : j < (iter_bits w D (p * 8 % w)).length := by omega
  have hwrite := cursorWrite_touched w p hw hw8 a D j hjn hbound2
  have hkm : k % w < w := Nat.mod_lt _ (by omega)
  unfold streamBit
  rw [hkj, hwrite, Nat.testBit_or, Nat.testBit_and, testBit_msb_mask]
  have hmsb : ¬ (w ≤ w - 1 - k % w ∧ w - 1 - k % w < 8) := by omega
  simp only [hmsb, decide_False, Bool.and_false, Bool.false_or]
  rw [l2 j (w - 1 - k % w) hjn]
  have ht : w - 1 - k % w < w := by omega
  simp only [ht, decide_True, Bool.true_and]
  have hinner : w - 1 - (w - 1 - k % w) = k % w := by omega
  rw [hinner]
  have hkdm : k / w * w + k % w = k := Nat.div_add_mod' _ _
  rw [hkj] at hkdm
  have hAdd : (p * 8 / w + j) * w = p * 8 / w * w + j * w := Nat.add_mul _ _ _
  unfold pendBit
  rw [if_neg (by omega : ¬ j * w + k % w < p * 8 % w)]
  congr 1
  omega

/-! ### Characterization of `iter_bytes` (the read side) -/

/-- The stream bit at position `(i+1)*w - 1 - u` (for `u < w`) is bit `u` of sample `i`. -/
theorem streamBit_sample (w : Nat) (hw : 1 ≤ w) (a : List Nat) (i u : Nat) (hu : u < w) :
    streamBit w a ((i + 1) * w - 1 - u) = (a.getD i 0).testBit u := by
  have hiw : (i + 1) * w = w * i + w := by ring
  have hx : (i + 1) * w - 1 - u = w * i + (w - 1 - u) := by omega
  unfold streamBit
  rw [hx, Nat.mul_add_div (by omega), Nat.mul_add_mod,
    Nat.div_eq_of_lt (by omega : w - 1 - u < w), Nat.mod_eq_of_lt (by omega : w - 1 - u < w),
    Nat.add_zero]
  congr 1
  omega

/-- Bit `8*i + (7-t)` of a payload (for `t < 8`) is bit `t` of byte `i`. -/
theorem dataBit_byte (D : List Nat) (i t : Nat) (ht : t < 8) :
    dataBit D (8 * i + (7 - t)) = (D.getD i 0 &&& 0xFF).testBit t := by
  unfold dataBit
  rw [Nat.mul_add_div (by omega), Nat.mul_add_mod,
    Nat.div_eq_of_lt (by omega : 7 - t < 8), Nat.mod_eq_of_lt (by omega : 7 - t < 8),
    Nat.add_zero]
  congr 1
  omega

/-- Characterization of one emitted byte of `iter_bytes`.  Invariant: the low `bits`
bits of `q` are the stream bits `[E, (idx+1)*w)` where `E = (idx+1)*w - bits` is the
next unemitted stream position.  The loop emits the byte made of stream bits
`[E, E+8)` MSB-first and re-establishes the invariant at `E + 8`. -/
theorem readByteF_spec (w : Nat) (hw : 1 ≤ w) (hw8 : w ≤ 8) (a : List Nat) :
    ∀ fuel idx bits q E, 1 ≤ fuel → 8 ≤ bits + fuel * w → bits ≤ 8 →
      (idx + 1) * w = E + bits →
      (∀ u, u < bits → q.testBit u = streamBit w a ((idx + 1) * w - 1 - u)) →
      (∀ t, (readByteF w a fuel idx bits q).1.testBit t
          = (decide (t < 8) && streamBit w a (E + (7 - t)))) ∧
      (readByteF w a fuel idx bits q).1 < 256 ∧
      (readByteF w a fuel idx bits q).2.2.1 ≤ 8 ∧
      ((readByteF w a fuel idx bits q).2.1 + 1) * w
        = (E + 8) + (readByteF w a fuel idx bits q).2.2.1 ∧
      (∀ u, u < (readByteF w a fuel idx bits q).2.2.1 →
        (readByteF w a fuel idx bits q).2.2.2.testBit u
          = streamBit w a (((readByteF w a fuel idx bits q).2.1 + 1) * w - 1 - u)) := by
  intro fuel
  induction fuel with
  | zero => intro idx bits q E h1 _ _ _ _; omega
  | succ fuel ih =>
    intro idx bits q E _ hfuel2 hbits8 hE hq
    have hiw : (idx + 1 + 1) * w = (idx + 1) * w + w := by ring
    have hq' : ∀ u, u < bits + w →
        ((q <<< w) % 65536 ||| (a.getD (idx + 1) 0 &&& lsb_mask w)).testBit u
          = streamBit w a ((idx + 1 + 1) * w - 1 - u) := by
      intro u hu
      rw [Nat.testBit_or]
      have h65536 : (65536 : Nat) = 2 ^ 16 := by norm_num
      rw [h65536, Nat.testBit_mod_two_pow, Nat.testBit_shiftLeft]
      show (decide (u < 16) && (decide (u ≥ w) && q.testBit (u - w))
        || (a.getD (idx + 1) 0 &&& lsb_mask w).testBit u) = _
      rcases Nat.lt_or_ge u w with huw | huw
      · have h1 : ¬ (u ≥ w) := by omega
        simp only [ge_iff_le, h1, decide_False, Bool.false_and, Bool.and_false,
          Bool.false_or]
        show (a.getD (idx + 1) 0 &&& get_mask w).testBit u = _
        rw [Nat.testBit_and, testBit_get_mask]
        simp only [huw, decide_True, Bool.and_true]
        rw [streamBit_sample w hw a (idx + 1) u huw]
      · have h1 : u ≥ w := huw
        have h2 : u < 16 := by omega
        have h3 : u - w < bits := by omega
        simp only [ge_iff_le, h1, h2, decide_True, Bool.true_and]
        have h4 : (a.getD (idx + 1) 0 &&& lsb_mask w).testBit u = false := by
          show (a.getD (idx + 1) 0 &&& get_mask w).testBit u = false
          rw [Nat.testBit_and, testBit_get_mask]
          simp [Nat.not_lt.2 h1]
        rw [h4, Bool.or_false, hq _ h3]
        congr 1
        omega
    by_cases h8 : 8 ≤ bits + w
    · have hred : readByteF w a (fuel + 1) idx bits q
          = ((((q <<< w) % 65536 ||| (a.getD (idx + 1) 0 &&& lsb_mask w)) >>> (bits + w - 8)) % 256,
             idx + 1, bits + w - 8,
             (q <<< w) % 65536 ||| (a.getD (idx + 1) 0 &&& lsb_mask w)) := by
        simp only [readByteF, if_pos h8]
      rw [hred]
      have h256 : (256 : Nat) = 2 ^ 8 := by norm_num
      refine ⟨?_, ?_, (show bits + w - 8 ≤ 8 by omega),
        (show (idx + 1 + 1) * w = (E + 8) + (bits + w - 8) by omega), ?_⟩
      · intro t
        rw [h256, Nat.testBit_mod_two_pow, Nat.testBit_shiftRight]
        rcases Nat.lt_or_ge t 8 with ht | ht
        · have h5 : bits + w - 8 + t < bits + w := by omega
          rw [hq' _ h5]
          simp only [ht, decide_True, Bool.true_and]
          congr 1
          omega
        · simp [Nat.not_lt.2 ht]
      · rw [h256]
        exact Nat.mod_lt _ (by norm_num)
      · intro u hu
        have hu' : u < bits + w - 8 := hu
        exact hq' u (by omega)
    · have hred : readByteF w a (fuel + 1) idx bits q
          = readByteF w a fuel (idx + 1) (bits + w)
              ((q <<< w) % 65536 ||| (a.getD (idx + 1) 0 &&& lsb_mask w)) := by
        simp only [readByteF, if_neg h8]
      rw [hred]
      have hfw : (fuel + 1) * w = fuel * w + w := by ring
      have hfuel1 : 1 ≤ fuel := by
        rcases Nat.eq_zero_or_pos fuel with hf | hf
        · subst hf
          omega
        · exact hf
      exact ih (idx + 1) (bits + w)
        ((q <<< w) % 65536 ||| (a.getD (idx + 1) 0 &&& lsb_mask w)) E
        hfuel1 (by omega) (by omega) (by omega) hq'

/-- Characterization of the emitted byte list of `iter_bytes`: byte `i` is made of
stream bits `[E + 8*i, E + 8*i + 8)`, MSB-first. -/
theorem readBytesF_spec (w : Nat) (hw : 1 ≤ w) (hw8 : w ≤ 8) (a : List Nat) :
    ∀ (L idx bits q E : Nat), bits ≤ 8 → (idx + 1) * w = E + bits →
      (∀ u, u < bits → q.testBit u = streamBit w a ((idx + 1) * w - 1 - u)) →
      (readBytesF w a L idx bits q).length = L ∧
      (∀ i, i < L → (readBytesF w a L idx bits q).getD i 0 < 256) ∧
      (∀ i t, i < L → ((readBytesF w a L idx bits q).getD i 0).testBit t
          = (decide (t < 8) && streamBit w a (E + 8 * i + (7 - t)))) := by
  intro L
  induction L with
  | zero =>
    intro idx bits q E _ _ _
    exact ⟨rfl, fun i hi => absurd hi (by omega), fun i t hi => absurd hi (by omega)⟩
  | succ L ih =>
    intro idx bits q E hbits hE hq
    obtain ⟨b1, b2, b3, b4, b5⟩ := readByteF_spec w hw hw8 a 8 idx bits q E
      (by omega) (by omega) hbits hE hq
    obtain ⟨j1, j2, j3⟩ := ih (readByteF w a 8 idx bits q).2.1
      (readByteF w a 8 idx bits q).2.2.1 (readByteF w a 8 idx bits q).2.2.2 (E + 8)
      b3 b4 b5
    have hcons : readBytesF w a (L + 1) idx bits q
        = (readByteF w a 8 idx bits q).1 ::
          readBytesF w a L (readByteF w a 8 idx bits q).2.1
            (readByteF w a 8 idx bits q).2.2.1 (readByteF w a 8 idx bits q).2.2.2 := by
      simp only [readBytesF]
    rw [hcons]
    refine ⟨by simp [j1], ?_, ?_⟩
    · intro i hi
      match i with
      | 0 => simpa using b2
      | i + 1 =>
        rw [List.getD_cons_succ]
        exact j2 i (by omega)
    · intro i t hi
      match i with
      | 0 =>
        rw [List.getD_cons_zero, b1 t]
        simp
      | i + 1 =>
        rw [List.getD_cons_succ, j3 i t (by omega)]
        have h1 : E + 8 + 8 * i + (7 - t) = E + 8 * (i + 1) + (7 - t) := by omega
        rw [h1]

/-- Characterization of `Cursor.read` from a seeked cursor: it returns exactly
`count` bytes, byte `i` being stream bits `[p*8 + 8*i, p*8 + 8*i + 8)` of the array,
and leaves the cursor seeked to `p + count`. -/
theorem cursorRead_spec (w p : Nat) (hw : 1 ≤ w) (hw8 : w ≤ 8) (a : List Nat) (L : Nat) :
    ((Cursor.atPos w p).readVal a (L : Int)).1.length = L ∧
    (∀ i, i < L → ((Cursor.atPos w p).readVal a (L : Int)).1.getD i 0 < 256) ∧
    (∀ i t, i < L → (((Cursor.atPos w p).readVal a (L : Int)).1.getD i 0).testBit t
        = (decide (t < 8) && streamBit w a (p * 8 + 8 * i + (7 - t)))) ∧
    ((Cursor.atPos w p).readVal a (L : Int)).2 = Cursor.atPos w (p + L) := by
  have hsm : p * 8 % w < w := Nat.mod_lt _ (by omega)
  have hps : p * 8 / w * w + p * 8 % w = p * 8 := Nat.div_add_mod' _ _
  have hbits : (Cursor.atPos w p).getBits = w - p * 8 % w := rfl
  have hE : (p * 8 / w + 1) * w = p * 8 + (w - p * 8 % w) := by
    have h1 : (p * 8 / w + 1) * w = p * 8 / w * w + w := by ring
    omega
  have hq : ∀ u, u < w - p * 8 % w →
      (a.getD (p * 8 / w) 0 &&& get_mask (w - p * 8 % w)).testBit u
        = streamBit w a ((p * 8 / w + 1) * w - 1 - u) := by
    intro u hu
    rw [Nat.testBit_and, testBit_get_mask, streamBit_sample w hw a _ u (by omega)]
    simp [hu]
  obtain ⟨r1, r2, r3⟩ := readBytesF_spec w hw hw8 a L (p * 8 / w) (w - p * 8 % w)
    (a.getD (p * 8 / w) 0 &&& get_mask (w - p * 8 % w)) (p * 8) (by omega) hE hq
  have htoNat : ((L : Int)).toNat = L := Int.toNat_natCast L
  have hread : (Cursor.atPos w p).readVal a (L : Int)
      = (readBytesF w a L (p * 8 / w) (w - p * 8 % w)
          (a.getD (p * 8 / w) 0 &&& get_mask (w - p * 8 % w)),
         Cursor.atPos w (p + L)) := by
    simp only [Cursor.readVal, hbits, htoNat]
    rfl
  rw [hread]
  exact ⟨r1, r2, r3, rfl⟩

/-- The one-byte reader only moves `idx` forward. -/
theorem readByteF_idx_mono (w : Nat) (a : List Nat) :
    ∀ fuel idx bits q, idx ≤ (readByteF w a fuel idx bits q).2.1 := by
  intro fuel
  induction fuel with
  | zero => intro idx bits q; exact Nat.le_refl _
  | succ fuel ih =>
    intro idx bits q
    by_cases h8 : 8 ≤ bits + w
    · have hred : readByteF w a (fuel + 1) idx bits q
          = ((((q <<< w) % 65536 ||| (a.getD (idx + 1) 0 &&& lsb_mask w)) >>> (bits + w - 8)) % 256,
             idx + 1, bits + w - 8,
             (q <<< w) % 65536 ||| (a.getD (idx + 1) 0 &&& lsb_mask w)) := by
        simp only [readByteF, if_pos h8]
      rw [hred]
      exact Nat.le_succ idx
    · have hred : readByteF w a (fuel + 1) idx bits q
          = readByteF w a fuel (idx + 1) (bits + w)
              ((q <<< w) % 65536 ||| (a.getD (idx + 1) 0 &&& lsb_mask w)) := by
        simp only [readByteF, if_neg h8]
      rw [hred]
      exact Nat.le_trans (Nat.le_succ idx) (ih _ _ _)

/-- The multi-byte reader only moves `idx` forward. -/
theorem readStateF_idx_mono (w : Nat) (a : List Nat) :
    ∀ n idx bits q, idx ≤ (readStateF w a n idx bits q).1 := by
  intro n
  induction n with
  | zero => intro idx bits q; exact Nat.le_refl _
  | succ n ih =>
    intro idx bits q
    have hred : readStateF w a (n + 1) idx bits q
        = readStateF w a n (readByteF w a 8 idx bits q).2.1
            (readByteF w a 8 idx bits q).2.2.1 (readByteF w a 8 idx bits q).2.2.2 := rfl
    rw [hred]
    exact Nat.le_trans (readByteF_idx_mono w a 8 idx bits q) (ih _ _ _)

/-- When the final index of a one-byte step is in bounds, every access of the step
is, and the checked reader agrees with the unchecked value. -/
theorem readByteE_eq (w : Nat) (a : List Nat) :
    ∀ fuel idx bits q, (readByteF w a fuel idx bits q).2.1 < a.length →
      readByteE w a fuel idx bits q = .ok (readByteF w a fuel idx bits q) := by
  intro fuel
  induction fuel with
  | zero => intro idx bits q _; rfl
  | succ fuel ih =>
    intro idx bits q hb
    by_cases h8 : 8 ≤ bits + w
    · have hred : readByteF w a (fuel + 1) idx bits q
          = ((((q <<< w) % 65536 ||| (a.getD (idx + 1) 0 &&& lsb_mask w)) >>> (bits + w - 8)) % 256,
             idx + 1, bits + w - 8,
             (q <<< w) % 65536 ||| (a.getD (idx + 1) 0 &&& lsb_mask w)) := by
        simp only [readByteF, if_pos h8]
      rw [hred] at hb
      have hb' : idx + 1 < a.length := hb
      have hredE : readByteE w a (fuel + 1) idx bits q
          = .ok ((((q <<< w) % 65536 ||| (a.getD (idx + 1) 0 &&& lsb_mask w)) >>> (bits + w - 8)) % 256,
             idx + 1, bits + w - 8,
             (q <<< w) % 65536 ||| (a.getD (idx + 1) 0 &&& lsb_mask w)) := by
        simp only [readByteE, if_pos h8, if_pos hb']
      rw [hredE, hred]
    · have hred : readByteF w a (fuel + 1) idx bits q
          = readByteF w a fuel (idx + 1) (bits + w)
              ((q <<< w) % 65536 ||| (a.getD (idx + 1) 0 &&& lsb_mask w)) := by
        simp only [readByteF, if_neg h8]
      rw [hred] at hb
      have hb' : idx + 1 < a.length :=
        Nat.lt_of_le_of_lt (readByteF_idx_mono w a fuel (idx + 1) (bits + w) _) hb
      have hredE : readByteE w a (fuel + 1) idx bits q
          = readByteE w a fuel (idx + 1) (bits + w)
              ((q <<< w) % 65536 ||| (a.getD (idx + 1) 0 &&& lsb_mask w)) := by
        simp only [readByteE, if_neg h8, if_pos hb']
      rw [hredE, hred]
      exact ih _ _ _ hb

/-- When the final index of an `n`-byte read is in bounds, every access is, and the
checked reader agrees with the unchecked value. -/
theorem readBytesE_eq (w : Nat) (a : List Nat) :
    ∀ n idx bits q, (readStateF w a n idx bits q).1 < a.length →
      readBytesE w a n idx bits q = .ok (readBytesF w a n idx bits q) := by
  intro n
  induction n with
  | zero => intro idx bits q _; rfl
  | succ n ih =>
    intro idx bits q hb
    have hredS : readStateF w a (n + 1) idx bits q
        = readStateF w a n (readByteF w a 8 idx bits q).2.1
            (readByteF w a 8 idx bits q).2.2.1 (readByteF w a 8 idx bits q).2.2.2 := rfl
    rw [hredS] at hb
    have hb1 : (readByteF w a 8 idx bits q).2.1 < a.length :=
      Nat.lt_of_le_of_lt (readStateF_idx_mono w a n _ _ _) hb
    have h1 := readByteE_eq w a 8 idx bits q hb1
    have h2 := ih (readByteF w a 8 idx bits q).2.1
      (readByteF w a 8 idx bits q).2.2.1 (readByteF w a 8 idx bits q).2.2.2 hb
    simp only [readBytesE, readBytesF, h1, h2]

/-- The invariant of `readByteF_spec` chained over `n` bytes: the final state
satisfies `(idx+1)·w = E + 8·n + bits` with at most 8 pending bits, which bounds
the largest accessed index. -/
theorem readStateF_spec (w : Nat) (hw : 1 ≤ w) (hw8 : w ≤ 8) (a : List Nat) :
    ∀ n idx bits q E, bits ≤ 8 → (idx + 1) * w = E + bits →
      (∀ u, u < bits → q.testBit u = streamBit w a ((idx + 1) * w - 1 - u)) →
      ((readStateF w a n idx bits q).1 + 1) * w
        = E + 8 * n + (readStateF w a n idx bits q).2.1 ∧
      (readStateF w a n idx bits q).2.1 ≤ 8 := by
  intro n
  induction n with
  | zero =>
    intro idx bits q E hb hE _
    refine ⟨?_, hb⟩
    show (idx + 1) * w = E + 8 * 0 + bits
    rw [hE]
    omega
  | succ n ih =>
    intro idx bits q E hb hE hq
    obtain ⟨_, _, b3, b4, b5⟩ := readByteF_spec w hw hw8 a 8 idx bits q E
      (by omega) (by omega) hb hE hq
    obtain ⟨i1, i2⟩ := ih (readByteF w a 8 idx bits q).2.1
      (readByteF w a 8 idx bits q).2.2.1 (readByteF w a 8 idx bits q).2.2.2 (E + 8)
      b3 b4 b5
    have hred : readStateF w a (n + 1) idx bits q
        = readStateF w a n (readByteF w a 8 idx bits q).2.1
            (readByteF w a 8 idx bits q).2.2.1 (readByteF w a 8 idx bits q).2.2.2 := rfl
    rw [hred]
    refine ⟨?_, i2⟩
    rw [i1]
    omega

/-- Checked cursor read from a seeked position: under the byte budget
`8·(P + n) + 8 ≤ len·w` every access of `iter_bytes` stays inside the array, and
the checked read returns the unchecked value. -/
theorem cursorRead_ok (w P : Nat) (hw : 1 ≤ w) (hw8 : w ≤ 8) (a : List Nat) (n : Nat)
    (hb : 8 * (P + n) + 8 ≤ a.length * w) :
    (Cursor.atPos w P).read a (n : Int) = .ok ((Cursor.atPos w P).readVal a (n : Int)) := by
  have hsm : P * 8 % w < w := Nat.mod_lt _ (by omega)
  have hps : P * 8 / w * w + P * 8 % w = P * 8 := Nat.div_add_mod' _ _
  have hE : (P * 8 / w + 1) * w = P * 8 + (w - P * 8 % w) := by
    have h1 : (P * 8 / w + 1) * w = P * 8 / w * w + w := by ring
    omega
  have hq : ∀ u, u < w - P * 8 % w →
      (a.getD (P * 8 / w) 0 &&& get_mask (w - P * 8 % w)).testBit u
        = streamBit w a ((P * 8 / w + 1) * w - 1 - u) := by
    intro u hu
    rw [Nat.testBit_and, testBit_get_mask, streamBit_sample w hw a _ u (by omega)]
    simp [hu]
  obtain ⟨hs1, hs2⟩ := readStateF_spec w hw hw8 a n (P * 8 / w) (w - P * 8 % w)
    (a.getD (P * 8 / w) 0 &&& get_mask (w - P * 8 % w)) (P * 8) (by omega) hE hq
  have hfin : (readStateF w a n (P * 8 / w) (w - P * 8 % w)
      (a.getD (P * 8 / w) 0 &&& get_mask (w - P * 8 % w))).1 < a.length := by
    have h1 : ((readStateF w a n (P * 8 / w) (w - P * 8 % w)
        (a.getD (P * 8 / w) 0 &&& get_mask (w - P * 8 % w))).1 + 1) * w
        ≤ a.length * w := by
      rw [hs1]
      omega
    have h2 := Nat.le_of_mul_le_mul_right h1 (show 0 < w by omega)
    omega
  have hidx0 : (Cursor.atPos w P).idx < a.length := by
    have hm := readStateF_idx_mono w a n (P * 8 / w) (w - P * 8 % w)
      (a.getD (P * 8 / w) 0 &&& get_mask (w - P * 8 % w))
    show P * 8 / w < a.length
    omega
  have htoNat : ((n : Int)).toNat = n := Int.toNat_natCast n
  have hbits : (Cursor.atPos w P).getBits = w - P * 8 % w := rfl
  have hidx : (Cursor.atPos w P).idx = P * 8 / w := rfl
  have hlsb : (Cursor.atPos w P).lsb = w := rfl
  have hE2 := readBytesE_eq w a n (P * 8 / w) (w - P * 8 % w)
    (a.getD (P * 8 / w) 0 &&& get_mask (w - P * 8 % w)) hfin
  simp only [Cursor.read, Cursor.readVal, hbits, hidx, hlsb, htoNat]
  rw [if_pos (show P * 8 / w < a.length from hidx0), hE2]

theorem getElem_eq_getD (l : List Nat) (j : Nat) (h : j < l.length) : l[j] = l.getD j 0 := by
  rw [List.getD_eq_getElem?_getD, List.getElem?_eq_getElem h]
  rfl


/-! ### Container-level reduction lemmas -/

theorem readBytesF_length (w : Nat) (a : List Nat) :
    ∀ L idx bits q, (readBytesF w a L idx bits q).length = L := by
  intro L
  induction L with
  | zero => intro idx bits q; rfl
  | succ L ih =>
    intro idx bits q
    simp only [readBytesF, List.length_cons, ih]

theorem writeVals_length (bm : Nat) :
    ∀ (vs a : List Nat) (i : Nat), (writeVals bm a i vs).length = a.length := by
  intro vs
  induction vs with
  | nil => intro a i; rfl
  | cons v vs ih =>
    intro a i
    show (writeVals bm (a.set i _) (i + 1) vs).length = a.length
    rw [ih, List.length_set]

theorem cursorWrite_length (c : Cursor) (a D : List Nat) :
    ((c.write a D).1).length = a.length := by
  unfold Cursor.write
  by_cases h : (iter_bits c.lsb D (c.lsb - c.getBits)).length = 0
  · rw [if_pos h]
  · rw [if_neg h]
    exact writeVals_length _ _ _ _

theorem cursorWrite_pos (c : Cursor) (a D : List Nat) :
    c.pos ≤ ((c.write a D).2).pos := by
  unfold Cursor.write
  by_cases h : (iter_bits c.lsb D (c.lsb - c.getBits)).length = 0
  · rw [if_pos h]
  · rw [if_neg h]
    show c.pos ≤ c.pos + D.length
    omega

/-- The cursor after `Container.seek p`. -/
theorem containerSeek_cursor (c : Container) (p : Nat) :
    (c.seek p).cursor = Cursor.atPos c.cursor.lsb (p + c.header_end) := by
  show c.cursor.seekTo (p + c.header_end) = _
  unfold Cursor.seekTo Cursor.atPos
  rfl

/-- `Container.read` when the cursor read succeeds. -/
theorem containerRead_ok (c : Container) (hv : c.header.is_valid = true)
    (count : Option Int) (rv : List Nat × Cursor)
    (hok : c.cursor.read c.data (c.readCount count) = .ok rv) :
    c.read count = .ok (rv.1, { c with cursor := rv.2 }) := by
  unfold Container.read
  rw [if_pos hv, hok]

/-- `Container.read` propagates the cursor read failure. -/
theorem containerRead_err (c : Container) (hv : c.header.is_valid = true)
    (count : Option Int) (e : String)
    (herr : c.cursor.read c.data (c.readCount count) = .error e) :
    c.read count = .error e := by
  unfold Container.read
  rw [if_pos hv, herr]

/-- A successful `Container.read` changes only the cursor. -/
theorem containerRead_ok_fields (c : Container) (count : Option Int)
    (r : List Nat × Container) (h : c.read count = .ok r) :
    r.2.header = c.header ∧ r.2.data = c.data ∧ r.2.lsb = c.lsb ∧
    r.2.header_end = c.header_end := by
  unfold Container.read at h
  by_cases hv : c.header.is_valid = true
  · rw [if_pos hv] at h
    cases hm : c.cursor.read c.data (c.readCount count) with
    | error e =>
      rw [hm] at h
      exact Except.noConfusion h
    | ok rv =>
      rw [hm] at h
      have h2 := Except.ok.inj h
      rw [← h2]
      exact ⟨rfl, rfl, rfl, rfl⟩
  · rw [if_neg hv] at h
    exact Except.noConfusion h

/-- A successful `read_from` changes only the cursor, and lands it at
`saved + header_end`: the saved absolute position is restored through
`Container.seek`, which adds `header_end` again. -/
theorem read_from_ok_fields (c : Container) (count : Int) (p : Nat)
    (r : List Nat × Container) (h : c.read_from count p = .ok r) :
    r.2.header = c.header ∧ r.2.data = c.data ∧ r.2.lsb = c.lsb ∧
    r.2.header_end = c.header_end ∧
    r.2.cursor.pos = c.cursor.pos + c.header_end := by
  cases hm : (c.seek p).read (some count) with
  | error e =>
    simp only [Container.read_from, hm, Except.bind] at h
    exact Except.noConfusion h
  | ok rr =>
    obtain ⟨f1, f2, f3, f4⟩ := containerRead_ok_fields (c.seek p) (some count) rr hm
    simp only [Container.read_from, hm, Except.bind] at h
    have h2 := Except.ok.inj h
    refine ⟨?_, ?_, ?_, ?_, ?_⟩
    · rw [← h2]
      exact f1
    · rw [← h2]
      exact f2
    · rw [← h2]
      exact f3
    · rw [← h2]
      exact f4
    · rw [← h2]
      show c.cursor.pos + rr.2.header_end = c.cursor.pos + c.header_end
      rw [f4]
      rfl

/-- `Container.write` on a valid container, in closed form. -/
theorem containerWrite_eq (c : Container) (hv : c.header.is_valid = true)
    (data : List Nat) :
    c.write data = .ok { c with
      data := (c.cursor.write c.data data).1,
      cursor := (c.cursor.write c.data data).2,
      header := { c.header with count := data.length } } := by
  unfold Container.write
  rw [if_pos hv]

/-! ### The claims -/

/-- Value-level round trip: when every read access is in bounds, the bytes the read
returns are exactly the payload that was written. -/
theorem roundTripVal (w p : Nat) (hw : 1 ≤ w) (hw8 : w ≤ 8) (a D : List Nat)
    (hD : ∀ b ∈ D, b < 256) (hcap : p + D.length ≤ a.length * w / 8) :
    ((Cursor.atPos w p).readVal ((Cursor.atPos w p).write a D).1 (D.length : Int)).1
      = D := by
  have hcap8 : (p + D.length) * 8 ≤ a.length * w :=
    (Nat.le_div_iff_mul_le (show 0 < 8 by norm_num)).1 hcap
  obtain ⟨r1, r2, r3, _⟩ := cursorRead_spec w p hw hw8 ((Cursor.atPos w p).write a D).1
    D.length
  apply List.ext_getElem (by rw [r1])
  intro i h1 h2
  rw [getElem_eq_getD _ _ h1, getElem_eq_getD _ _ h2]
  have hi : i < D.length := h2
  have hDi : D.getD i 0 < 256 := by
    have hmem : D.getD i 0 ∈ D := by
      rw [List.getD_eq_getElem?_getD, List.getElem?_eq_getElem hi]
      exact List.getElem_mem hi
    exact hD _ hmem
  apply Nat.eq_of_testBit_eq
  intro t
  rcases Nat.lt_or_ge t 8 with ht | ht
  · rw [r3 i t hi]
    have hk2 : p * 8 + 8 * i + (7 - t) < (p + D.length) * 8 := by
      have h3 : (p + D.length) * 8 = p * 8 + 8 * D.length := by ring
      omega
    rw [cursorWrite_streamBit w p hw hw8 a D hcap8 _ (by omega) hk2]
    have h3 : p * 8 + 8 * i + (7 - t) - p * 8 = 8 * i + (7 - t) := by omega
    rw [h3, dataBit_byte D i t ht]
    have h4 : D.getD i 0 &&& 0xFF = D.getD i 0 := by
      have h255 : (0xFF : Nat) = 2 ^ 8 - 1 := by norm_num
      rw [h255]
      exact Nat.and_pow_two_sub_one_of_lt_two_pow (Nat.lt_of_lt_of_le hDi (by norm_num))
    rw [h4]
    simp [ht]
  · rw [testBit_false_of_lt (Nat.lt_of_lt_of_le (r2 i hi) (by norm_num : (256 : Nat) ≤ 2 ^ 8)) ht,
      testBit_false_of_lt (Nat.lt_of_lt_of_le hDi (by norm_num : (256 : Nat) ≤ 2 ^ 8)) ht]

/-- Counterexample to C1 as stated: the hypothesis `p + len(D) ≤ ⌊len·w/8⌋` admits
`w = 8` reads ending exactly at the array end, where `iter_bytes` reads one sample
ahead of each emitted byte and `array[len]` raises `IndexError`.  Writing one byte
into a one-sample array at `w = 8` satisfies the capacity bound (`1 ≤ 1`), but the
read-back crashes instead of returning the payload. -/
theorem claim_C1_counterexample :
    (0 + [0x42].length ≤ [(5 : Nat)].length * 8 / 8) ∧
    ((((Cursor.atPos 8 0).write [5] [0x42]).2.seekTo 0).read
        (((Cursor.atPos 8 0).write [5] [0x42])).1 (([0x42] : List Nat).length : Int))
      = .error "IndexError" :=
  ⟨by decide, rfl⟩

/-- C1 (amended). Round trip: for every width `w ∈ [1,8]`, every sample array,
every starting offset `p` and every byte payload `D` whose read-back access budget
fits the array (`8·(p + len(D)) + 8 ≤ len(array)·w`, which implies the capacity
bound `p + len(D) ≤ ⌊len·w/8⌋` and keeps the one-sample lookahead of `iter_bytes`
in bounds), `Cursor.write(D)` at offset `p` followed by seeking back to `p` and
`Cursor.read(len(D))` succeeds and returns exactly the bytes `D`. -/
theorem claim_C1 (w p : Nat) (hw : 1 ≤ w) (hw8 : w ≤ 8) (a D : List Nat)
    (hD : ∀ b ∈ D, b < 256) (hcap : 8 * (p + D.length) + 8 ≤ a.length * w) :
    ((((Cursor.atPos w p).write a D).2.seekTo p).read
        ((Cursor.atPos w p).write a D).1 (D.length : Int))
      = .ok (D, Cursor.atPos w (p + D.length)) := by
  have hlen : (((Cursor.atPos w p).write a D).1).length = a.length :=
    cursorWrite_length _ _ _
  have hcur : (((Cursor.atPos w p).write a D).2).seekTo p = Cursor.atPos w p := by
    rw [cursorWrite_cursor w p hw hw8]
    rfl
  rw [hcur]
  have hok := cursorRead_ok w p hw hw8 ((Cursor.atPos w p).write a D).1 D.length
    (by rw [hlen]; exact hcap)
  rw [hok]
  have h1 : ((Cursor.atPos w p).readVal ((Cursor.atPos w p).write a D).1
      (D.length : Int)).1 = D :=
    roundTripVal w p hw hw8 a D hD
      ((Nat.le_div_iff_mul_le (show 0 < 8 by norm_num)).2 (by omega))
  have h2 : ((Cursor.atPos w p).readVal ((Cursor.atPos w p).write a D).1
      (D.length : Int)).2 = Cursor.atPos w (p + D.length) :=
    (cursorRead_spec w p hw hw8 ((Cursor.atPos w p).write a D).1 D.length).2.2.2
  exact congrArg Except.ok (Prod.ext h1 h2)

/-- Witness for C1 (amended) at `w = 3`, offset `p = 1`, a concrete array and
payload. -/
theorem claim_C1_witness :
    (1 ≤ 3 ∧ 3 ≤ 8 ∧ (∀ b ∈ [0xAB, 0xCD], b < 256) ∧
      8 * (1 + [0xAB, 0xCD].length) + 8 ≤ (List.replicate 30 255).length * 3) ∧
    ((((Cursor.atPos 3 1).write (List.replicate 30 255) [0xAB, 0xCD]).2.seekTo 1).read
        (((Cursor.atPos 3 1).write (List.replicate 30 255) [0xAB, 0xCD])).1
        (([0xAB, 0xCD] : List Nat).length : Int))
      = .ok ([0xAB, 0xCD], Cursor.atPos 3 (1 + [0xAB, 0xCD].length)) :=
  ⟨⟨by norm_num, by norm_num, by decide, by decide⟩,
    claim_C1 3 1 (by norm_num) (by norm_num) (List.replicate 30 255) [0xAB, 0xCD]
      (by decide) (by decide)⟩

/-- C2. Seek address translation: for every width `w ∈ [1,8]` and offset `p`,
`seek(p)` yields index `⌊p*8/w⌋` and `w - ((p*8) mod w)` bits remaining (a zero
remainder maps to `w`, and the bits-remaining always lies in `[1, w]`), the cursor
state is updated accordingly, and the width-3 concrete scenario holds. -/
theorem claim_C2 (w p : Nat) (hw : 1 ≤ w) (hw8 : w ≤ 8) (c : Cursor) (hc : c.lsb = w) :
    seekTriple w p = (p, p * 8 / w, w - p * 8 % w) ∧
    (c.seekTo p).pos = p ∧ (c.seekTo p).idx = p * 8 / w ∧
    (p * 8 % w = 0 → w - p * 8 % w = w) ∧
    1 ≤ w - p * 8 % w ∧ w - p * 8 % w ≤ w ∧
    seekTriple 3 0 = (0, 0, 3) ∧ seekTriple 3 1 = (1, 2, 1) ∧
    seekTriple 3 2 = (2, 5, 2) := by
  have hm : p * 8 % w < w := Nat.mod_lt _ (by omega)
  refine ⟨rfl, rfl, ?_, fun _ => by omega, by omega, by omega, by decide, by decide,
    by decide⟩
  show p * 8 / c.lsb = p * 8 / w
  rw [hc]

/-- Witness for C2 at `w = 3`, `p = 1`. -/
theorem claim_C2_witness :
    ((1 : Nat) ≤ 3 ∧ (3 : Nat) ≤ 8 ∧ (Cursor.mk 3 0 0).lsb = 3) ∧
    (seekTriple 3 1 = (1, 1 * 8 / 3, 3 - 1 * 8 % 3) ∧
      ((Cursor.mk 3 0 0).seekTo 1).pos = 1 ∧
      ((Cursor.mk 3 0 0).seekTo 1).idx = 1 * 8 / 3 ∧
      (1 * 8 % 3 = 0 → 3 - 1 * 8 % 3 = 3) ∧
      1 ≤ 3 - 1 * 8 % 3 ∧ 3 - 1 * 8 % 3 ≤ 3 ∧
      seekTriple 3 0 = (0, 0, 3) ∧ seekTriple 3 1 = (1, 2, 1) ∧
      seekTriple 3 2 = (2, 5, 2)) :=
  ⟨⟨by norm_num, by norm_num, rfl⟩,
    claim_C2 3 1 (by norm_num) (by norm_num) (Cursor.mk 3 0 0) rfl⟩

/-- C3 counterexample.  At width 3 a write of one byte starting at logical offset 1
begins mid-sample: only the low `3 - 2 = 1` bit of sample 2 belongs to the write's
first chunk, so the claim says bit 2 of sample 2 keeps its prior value.  The code
ANDs the whole slice with the constant `bit_mask` (the per-chunk masks are computed
but commented out), so bit 2 of sample 2 flips from 1 to 0. -/
theorem claim_C3_counterexample :
    (3 : Nat) - 1 * 8 % 3 = 1 ∧
    ((List.replicate 6 (255 : Nat)).getD 2 0).testBit 2 = true ∧
    (((Cursor.atPos 3 1).write (List.replicate 6 255) [0]).1.getD 2 0).testBit 2
      = false := by decide

/-- C3 as amended: each touched sample is replaced by
`(old AND msb_mask) OR chunk-value` — every bit at or above width `w` keeps its
prior value, the low `w` bits become exactly the chunk value (so the uncovered
prefix bits of a mid-sample first chunk and the padding positions of a trailing
partial chunk are overwritten by the chunk's zero bits, not preserved) — and
samples outside the touched range are unchanged. -/
theorem claim_C3 (w p : Nat) (hw : 1 ≤ w) (hw8 : w ≤ 8) (a D : List Nat)
    (ha : ∀ x ∈ a, x < 256) :
    (∀ i, (i < p * 8 / w ∨ p * 8 / w + (iter_bits w D (p * 8 % w)).length ≤ i) →
      ((Cursor.atPos w p).write a D).1.getD i 0 = a.getD i 0) ∧
    (p * 8 / w + (iter_bits w D (p * 8 % w)).length ≤ a.length →
      ∀ j, j < (iter_bits w D (p * 8 % w)).length →
        (∀ t, w ≤ t →
          (((Cursor.atPos w p).write a D).1.getD (p * 8 / w + j) 0).testBit t
            = (a.getD (p * 8 / w + j) 0).testBit t) ∧
        ((((Cursor.atPos w p).write a D).1.getD (p * 8 / w + j) 0) &&& get_mask w
          = ((iter_bits w D (p * 8 % w)).getD j (0, 0)).1)) := by
  have hsm : p * 8 % w < w := Nat.mod_lt _ (by omega)
  have hgetD : ∀ i, a.getD i 0 < 256 := by
    intro i
    rcases Nat.lt_or_ge i a.length with h | h
    · refine ha _ ?_
      rw [List.getD_eq_getElem?_getD, List.getElem?_eq_getElem h]
      exact List.getElem_mem h
    · rw [getD_of_length_le _ _ _ h]
      norm_num
  refine ⟨fun i hi => cursorWrite_frame w p hw hw8 a D i hi, ?_⟩
  intro hbound j hj
  have htouch := cursorWrite_touched w p hw hw8 a D j hj hbound
  have hvlt : ((iter_bits w D (p * 8 % w)).getD j (0, 0)).1 < 2 ^ w :=
    iter_bits_val_lt w hw hw8 D _ hsm j hj
  constructor
  · intro t hts
    rw [htouch, Nat.testBit_or, Nat.testBit_and, testBit_msb_mask,
      testBit_false_of_lt hvlt hts, Bool.or_false]
    rcases Nat.lt_or_ge t 8 with ht8 | ht8
    · have hd : (w ≤ t ∧ t < 8) := ⟨hts, ht8⟩
      simp [hd]
    · have hd : ¬ (w ≤ t ∧ t < 8) := by omega
      simp only [hd, decide_False, Bool.and_false]
      rw [eq_comm]
      exact testBit_false_of_lt
        (Nat.lt_of_lt_of_le (hgetD _) (by norm_num : (256 : Nat) ≤ 2 ^ 8)) ht8
  · rw [htouch]
    apply Nat.eq_of_testBit_eq
    intro u
    rw [Nat.testBit_and, testBit_get_mask, Nat.testBit_or, Nat.testBit_and,
      testBit_msb_mask]
    rcases Nat.lt_or_ge u w with hu | hu
    · have hd : ¬ (w ≤ u ∧ u < 8) := by omega
      simp [hd, hu]
    · have h1 : ¬ (u < w) := Nat.not_lt.2 hu
      simp only [h1, decide_False, Bool.and_false]
      rw [eq_comm]
      exact testBit_false_of_lt hvlt hu

/-- Witness for C3 (amended) at `w = 3`, `p = 1`, a 6-sample array, payload `[0]`. -/
theorem claim_C3_witness :
    ((1 : Nat) ≤ 3 ∧ (3 : Nat) ≤ 8 ∧ (∀ x ∈ List.replicate 6 (255 : Nat), x < 256)) ∧
    ((∀ i, (i < 1 * 8 / 3 ∨ 1 * 8 / 3 + (iter_bits 3 [0] (1 * 8 % 3)).length ≤ i) →
      ((Cursor.atPos 3 1).write (List.replicate 6 255) [0]).1.getD i 0
        = (List.replicate 6 (255 : Nat)).getD i 0) ∧
    (1 * 8 / 3 + (iter_bits 3 [0] (1 * 8 % 3)).length ≤ (List.replicate 6 (255 : Nat)).length →
      ∀ j, j < (iter_bits 3 [0] (1 * 8 % 3)).length →
        (∀ t, 3 ≤ t →
          (((Cursor.atPos 3 1).write (List.replicate 6 255) [0]).1.getD (1 * 8 / 3 + j) 0).testBit t
            = ((List.replicate 6 (255 : Nat)).getD (1 * 8 / 3 + j) 0).testBit t) ∧
        ((((Cursor.atPos 3 1).write (List.replicate 6 255) [0]).1.getD (1 * 8 / 3 + j) 0) &&& get_mask 3
          = ((iter_bits 3 [0] (1 * 8 % 3)).getD j (0, 0)).1))) :=
  ⟨⟨by norm_num, by norm_num, by decide⟩,
    claim_C3 3 1 (by norm_num) (by norm_num) (List.replicate 6 255) [0] (by decide)⟩

/-- C5. The code at the failing input: a successful `_initialize` sets the valid
magic, count 0 and zero reserved bytes as the claim says, but stores
`sha256(b"").digest()[4:]` — the 28-byte tail of the empty digest — as the
checksum, which is not the first 4 bytes of the digest that `calc_checksum`
computes for a length-0 payload. -/
theorem claim_C5 (H : List Nat → List Nat) (hH : (H []).length = 32) (c : Container)
    (force : Bool) (hguard : force = true ∨ c.header.is_valid = false) :
    ∃ c', Container.initHeader H c force = .ok c' ∧
      c'.header.magic_bytes = MAGIC_BYTES ∧ c'.header.count = 0 ∧
      c'.header.reserved = [0, 0, 0, 0] ∧
      c'.header.checksum = (H []).drop 4 ∧
      c'.header.checksum.length = 28 ∧
      c'.header.checksum ≠ (H []).take 4 := by
  have hcond : (force || !c.header.is_valid) = true := by
    rcases hguard with h | h
    · simp [h]
    · simp [h]
  refine ⟨{ c with header :=
      { magic_bytes := MAGIC_BYTES, count := 0, checksum := (H []).drop 4,
        reserved := [0, 0, 0, 0] } }, ?_, rfl, rfl, rfl, rfl, ?_, ?_⟩
  · unfold Container.initHeader
    rw [if_pos hcond]
  · show ((H []).drop 4).length = 28
    rw [List.length_drop, hH]
  · intro heq
    have hlen := congrArg List.length heq
    rw [List.length_drop, List.length_take, hH] at hlen
    norm_num at hlen

/-- Witness for C5 with the digest stand-in and the invalid-header container. -/
theorem claim_C5_witness :
    ((H0 []).length = 32 ∧ cInvalid.header.is_valid = false) ∧
    (∃ c', Container.initHeader H0 cInvalid false = .ok c' ∧
      c'.header.magic_bytes = MAGIC_BYTES ∧ c'.header.count = 0 ∧
      c'.header.reserved = [0, 0, 0, 0] ∧
      c'.header.checksum = (H0 []).drop 4 ∧
      c'.header.checksum.length = 28 ∧
      c'.header.checksum ≠ (H0 []).take 4) :=
  ⟨⟨by decide, by decide⟩,
    claim_C5 H0 (by decide) cInvalid false (Or.inr (by decide))⟩

/-- C6. The code at the bug: `read_from` and `write_from` save the absolute cursor
position and restore it through `Container.seek`, which adds `header_end` again, so
the cursor ends at `saved + header_end` instead of `saved`. -/
theorem claim_C6 (c : Container) (hv : c.header.is_valid = true) (count : Int)
    (p : Nat) (data : List Nat) :
    (∀ r, c.read_from count p = .ok r →
      r.2.cursor.pos = c.cursor.pos + c.header_end) ∧
    (∀ c', c.write_from data p = .ok c' →
      c'.cursor.pos = c.cursor.pos + c.header_end) := by
  constructor
  · intro r hr
    exact (read_from_ok_fields c count p r hr).2.2.2.2
  · intro c' hc'
    have hv1 : (c.seek p).header.is_valid = true := hv
    simp only [Container.write_from, containerWrite_eq (c.seek p) hv1 data,
      Except.bind] at hc'
    have h2 := Except.ok.inj hc'
    rw [← h2]
    rfl

/-- Witness for C6 at the concrete valid container (`header_end = 14`, cursor at
position 14): after `read_from`/`write_from` the cursor sits at 28. -/
theorem claim_C6_witness :
    (cValid.header.is_valid = true) ∧
    ((∀ r, cValid.read_from 0 0 = .ok r →
      r.2.cursor.pos = cValid.cursor.pos + cValid.header_end) ∧
    (∀ c', cValid.write_from [7] 0 = .ok c' →
      c'.cursor.pos = cValid.cursor.pos + cValid.header_end)) :=
  ⟨by decide, claim_C6 cValid (by decide) 0 0 [7]⟩

/-- A successful read returns exactly `count.toNat` bytes. -/
theorem cursorReadVal_length (c : Cursor) (a : List Nat) (count : Int) :
    ((c.readVal a count).1).length = count.toNat :=
  readBytesF_length c.lsb a count.toNat c.idx c.getBits (a.getD c.idx 0 &&& get_mask c.getBits)

/-- A container read at a seeked cursor succeeds with exactly `k` bytes when the
clamped count is `k` and the access budget fits the array. -/
theorem containerRead_ok_len (c : Container) (hv : c.header.is_valid = true)
    (w P : Nat) (hc : c.cursor = Cursor.atPos w P)
    (hw : 1 ≤ w) (hw8 : w ≤ 8)
    (count : Option Int) (k : Nat)
    (hcnt : c.readCount count = (k : Int))
    (hb : 8 * (P + k) + 8 ≤ c.data.length * w) :
    ∃ r, c.read count = .ok r ∧ r.1.length = k := by
  have hok : c.cursor.read c.data (c.readCount count)
      = .ok ((Cursor.atPos w P).readVal c.data (k : Int)) := by
    rw [hcnt, hc]
    exact cursorRead_ok w P hw hw8 c.data k hb
  refine ⟨_, containerRead_ok c hv count _ hok, ?_⟩
  show ((Cursor.atPos w P).readVal c.data (k : Int)).1.length = k
  rw [cursorReadVal_length]
  exact Int.toNat_natCast k

/-- Counterexample to C8 as stated: `read` does not succeed on every valid-header
container.  On the reachable valid state whose header declares 3 payload bytes over
a 60-sample array of capacity 1 (exactly what `Container.write` of 3 bytes leaves
behind, see C7), `read()` walks past the array end and raises `IndexError` — the
hard failure is not confined to invalid headers. -/
theorem claim_C8_counterexample :
    cOver.header.is_valid = true ∧
    cOver.read none = .error "IndexError" :=
  ⟨rfl, rfl⟩

/-- C8 (amended). Read precondition and clamping: `Container.read` hard-fails on an
invalid header with the invalid-container assertion; on a valid header whose cursor
sits seeked at payload position `P` within the declared payload, and whose array
covers the declared payload with the reader's one-sample lookahead
(`8·(header.count + header_end) + 8 ≤ len·w`), a request beyond
`max_count = header.count + header_end - P` is clamped to `max_count` bytes and
still succeeds, a request within it succeeds with exactly the requested bytes, and
an omitted count reads all `max_count` remaining bytes.  (Without the access-budget
hypothesis a valid-header read can itself hard-fail with `IndexError`, see the
counterexample.) -/
theorem claim_C8 (c : Container) (w P : Nat) (hc : c.cursor = Cursor.atPos w P)
    (hw : 1 ≤ w) (hw8 : w ≤ 8) :
    (¬ c.header.is_valid = true →
      ∀ cnt, c.read cnt = .error "Attempt to read from an invalid container") ∧
    (c.header.is_valid = true →
      P ≤ c.header.count + c.header_end →
      8 * (c.header.count + c.header_end) + 8 ≤ c.data.length * w →
      (∀ n : Int, (c.header.count : Int) + c.header_end - P < n →
        ∃ r, c.read (some n) = .ok r ∧
          (r.1.length : Int) = (c.header.count : Int) + c.header_end - P) ∧
      (∀ n : Int, 0 ≤ n → n ≤ (c.header.count : Int) + c.header_end - P →
        ∃ r, c.read (some n) = .ok r ∧ (r.1.length : Int) = n) ∧
      (∃ r, c.read none = .ok r ∧
        (r.1.length : Int) = (c.header.count : Int) + c.header_end - P)) := by
  have hpos0 : c.cursor.pos = P := by
    rw [hc]
    rfl
  constructor
  · intro hv cnt
    unfold Container.read
    rw [if_neg hv]
  · intro hv hpos hcap
    refine ⟨?_, ?_, ?_⟩
    · intro n hn
      have hcnt : c.readCount (some n)
          = ((c.header.count + c.header_end - P : Nat) : Int) := by
        show (if ((c.header.count : Int) + c.header_end) - c.cursor.pos < n
            then ((c.header.count : Int) + c.header_end) - c.cursor.pos else n)
          = ((c.header.count + c.header_end - P : Nat) : Int)
        rw [hpos0, if_pos hn]
        omega
      obtain ⟨r, hr, hlen⟩ := containerRead_ok_len c hv w P hc hw hw8 (some n)
        (c.header.count + c.header_end - P) hcnt (by omega)
      refine ⟨r, hr, ?_⟩
      rw [hlen]
      omega
    · intro n hn0 hn
      have hcnt : c.readCount (some n) = ((n.toNat : Nat) : Int) := by
        show (if ((c.header.count : Int) + c.header_end) - c.cursor.pos < n
            then ((c.header.count : Int) + c.header_end) - c.cursor.pos else n)
          = ((n.toNat : Nat) : Int)
        rw [hpos0, if_neg (by omega)]
        omega
      obtain ⟨r, hr, hlen⟩ := containerRead_ok_len c hv w P hc hw hw8 (some n)
        n.toNat hcnt (by omega)
      refine ⟨r, hr, ?_⟩
      rw [hlen]
      omega
    · have hcnt : c.readCount none
          = ((c.header.count + c.header_end - P : Nat) : Int) := by
        show ((c.header.count : Int) + c.header_end) - c.cursor.pos
          = ((c.header.count + c.header_end - P : Nat) : Int)
        rw [hpos0]
        omega
      obtain ⟨r, hr, hlen⟩ := containerRead_ok_len c hv w P hc hw hw8 none
        (c.header.count + c.header_end - P) hcnt (by omega)
      refine ⟨r, hr, ?_⟩
      rw [hlen]
      omega

set_option maxRecDepth 4000 in
/-- Witness for C8 (amended) at the concrete containers: the invalid one
hard-fails, a request of 99 bytes against 0 remaining is clamped to 0 bytes, and
an omitted count reads the 0 remaining bytes. -/
theorem claim_C8_witness :
    ((¬ cInvalid.header.is_valid = true) ∧ cValid.header.is_valid = true ∧
      cValid.cursor = Cursor.atPos 2 14 ∧
      14 ≤ cValid.header.count + cValid.header_end ∧
      8 * (cValid.header.count + cValid.header_end) + 8 ≤ cValid.data.length * 2 ∧
      (cValid.header.count : Int) + cValid.header_end - 14 < 99) ∧
    (∀ cnt, cInvalid.read cnt = .error "Attempt to read from an invalid container") ∧
    (∃ r, cValid.read (some 99) = .ok r ∧
      (r.1.length : Int) = (cValid.header.count : Int) + cValid.header_end - 14) ∧
    (∃ r, cValid.read none = .ok r ∧
      (r.1.length : Int) = (cValid.header.count : Int) + cValid.header_end - 14) :=
  ⟨⟨by decide, by decide, by decide, by decide, by decide, by decide⟩,
    (claim_C8 cInvalid 2 14 (by decide) (by decide) (by decide)).1 (by decide),
    ((claim_C8 cValid 2 14 (by decide) (by decide) (by decide)).2 (by decide) (by decide)
      (by decide)).1 99 (by decide),
    ((claim_C8 cValid 2 14 (by decide) (by decide) (by decide)).2 (by decide) (by decide)
      (by decide)).2.2⟩

/-- The cursor position never decreases across the `format` write loop. -/
theorem formatLoop_pos (strat : Nat → List Nat) :
    ∀ (n k : Nat) (a : List Nat) (cur : Cursor),
      cur.pos ≤ ((formatLoop strat k n a cur).2).pos := by
  intro n
  induction n with
  | zero => intro k a cur; exact Nat.le_refl _
  | succ m ih =>
    intro k a cur
    show cur.pos ≤ ((formatLoop strat (k + 1) m ((cur.write a (strat k)).1)
      ((cur.write a (strat k)).2)).2).pos
    exact Nat.le_trans (cursorWrite_pos cur a (strat k))
      (ih (k + 1) ((cur.write a (strat k)).1) ((cur.write a (strat k)).2))

set_option maxRecDepth 20000 in
/-- Counterexample to C10 as stated: `format` on the concrete VALID container does
set `header.count = 0` and leaves `is_valid()` true, but the promised subsequent
default-count `read()` does not return an empty result — the format loop leaves the
cursor at index `⌊len·w/8⌋·8/w = 120 = len(data)`, and the eagerly evaluated
`array[self.idx]` of `iter_bytes` raises `IndexError`. -/
theorem claim_C10_counterexample :
    cValid.header.is_valid = true ∧
    (cValid.format fmt_zeros).header.count = 0 ∧
    (cValid.format fmt_zeros).header.is_valid = true ∧
    (cValid.format fmt_zeros).read none = .error "IndexError" :=
  ⟨rfl, rfl, rfl, rfl⟩

/-- C10 (amended). Format postcondition: after `format(strategy)` the header count
is `0` and `is_valid()` is unchanged; for a valid container the subsequent
default-count `read()` returns an empty result when the format loop left the cursor
index inside the array (`len·w` not a multiple of 8), and hard-fails with
`IndexError` when it left the index at or past the array end — as it does whenever
`8 ∣ len·w`, e.g. on the counterexample container. -/
theorem claim_C10 (c : Container) (strat : Nat → List Nat) :
    (c.format strat).header.count = 0 ∧
    (c.format strat).header.is_valid = c.header.is_valid ∧
    (c.header.is_valid = true →
      ((c.format strat).cursor.idx < (c.format strat).data.length →
        ∃ r, (c.format strat).read none = .ok r ∧ r.1 = []) ∧
      ((c.format strat).data.length ≤ (c.format strat).cursor.idx →
        (c.format strat).read none = .error "IndexError")) := by
  refine ⟨rfl, rfl, ?_⟩
  intro hv
  have hv2 : (c.format strat).header.is_valid = true := hv
  have hpos : c.header_end ≤ (c.format strat).cursor.pos := by
    show c.header_end ≤ ((formatLoop strat 0 (c.seek 0).get_capacity.toNat
      (c.seek 0).data (c.seek 0).cursor).2).pos
    have h1 := formatLoop_pos strat (c.seek 0).get_capacity.toNat 0
      (c.seek 0).data (c.seek 0).cursor
    have h2 : (c.seek 0).cursor.pos = 0 + c.header_end := rfl
    omega
  have hM : ((c.format strat).header.count : Int) + (c.format strat).header_end
      - (c.format strat).cursor.pos ≤ 0 := by
    have h0 : (c.format strat).header.count = 0 := rfl
    rw [h0]
    have h1 : (c.format strat).header_end = c.header_end := rfl
    rw [h1]
    omega
  have hMM : (c.format strat).readCount none ≤ 0 := by
    show ((c.format strat).header.count : Int) + (c.format strat).header_end
        - (c.format strat).cursor.pos ≤ 0
    exact hM
  constructor
  · intro hidx
    have ht : ((c.format strat).readCount none).toNat = 0 := by
      omega
    have hok : (c.format strat).cursor.read (c.format strat).data
        ((c.format strat).readCount none)
        = .ok ([], (c.format strat).cursor.seekTo ((c.format strat).cursor.pos
            + ((c.format strat).readCount none).toNat)) := by
      unfold Cursor.read
      rw [if_pos hidx, ht]
      rfl
    exact ⟨_, containerRead_ok _ hv2 none _ hok, rfl⟩
  · intro hge
    have herr : (c.format strat).cursor.read (c.format strat).data
        ((c.format strat).readCount none) = .error "IndexError" := by
      unfold Cursor.read
      rw [if_neg (by omega)]
    exact containerRead_err _ hv2 none _ herr

set_option maxRecDepth 20000 in
/-- Witness for C10 (amended): on a valid 61-sample container (`61·2 = 122` is not
a multiple of 8) formatting leaves count 0, keeps validity, and the subsequent
default read returns no bytes. -/
theorem claim_C10_witness :
    (cOdd.header.is_valid = true ∧
      (cOdd.format fmt_zeros).cursor.idx < (cOdd.format fmt_zeros).data.length) ∧
    (cOdd.format fmt_zeros).header.count = 0 ∧
    (cOdd.format fmt_zeros).header.is_valid = cOdd.header.is_valid ∧
    (∃ r, (cOdd.format fmt_zeros).read none = .ok r ∧ r.1 = []) :=
  ⟨⟨by decide, by decide⟩, (claim_C10 cOdd fmt_zeros).1, (claim_C10 cOdd fmt_zeros).2.1,
    ((claim_C10 cOdd fmt_zeros).2.2 (by decide)).1 (by decide)⟩

end Stego
